import Mathlib

/-!
Verification of the audiobook-tagger core: a shallow embedding, in Lean 4,
of the metadata match scorer, the file-to-book grouper, the destination-path
sanitizer, the directory scanner and the bounded-concurrency task queue,
together with theorems settling the specification claims about them.

Conventions of the embedding:
* JavaScript strings are modelled as Lean `String`/`List Char`; `s.length`
  is modelled as the character count (the data under consideration is
  within the basic multilingual plane, where the two agree).
* JavaScript numbers are modelled as `ℚ` (exact arithmetic); all divisions
  performed by the embedded code have nonzero denominators on every
  reachable branch, so `ℚ`'s zero-division convention is never exercised.
* A JavaScript value that may be `null`/`undefined` is modelled as an
  `Option`; JS string truthiness (empty string is falsy) is modelled
  explicitly by the `truthy` predicate.
-/

namespace AudiobookTagger

/-! ### JavaScript string primitives -/

/-- The JS regex class matched by the whitespace escape in non-unicode mode
(space, tab, line terminators, and the unicode space separators). -/
def jsWs (c : Char) : Bool :=
  c = ' ' ∨ c = '\t' ∨ c = '\n' ∨ c = '\x0b' ∨ c = '\x0c' ∨ c = '\r' ∨
  c = ' ' ∨ c = ' ' ∨ (' ' ≤ c ∧ c ≤ ' ') ∨
  c = ' ' ∨ c = ' ' ∨ c = ' ' ∨ c = ' ' ∨
  c = '　' ∨ c = '﻿'

/-- The JS regex word-character class: ASCII letters, digits and underscore. -/
def jsWordChar (c : Char) : Bool :=
  ('a' ≤ c ∧ c ≤ 'z') ∨ ('A' ≤ c ∧ c ≤ 'Z') ∨ ('0' ≤ c ∧ c ≤ '9') ∨ c = '_'

/-- ASCII decimal digit (the JS regex digit class). -/
def jsDigit (c : Char) : Bool := '0' ≤ c ∧ c ≤ '9'

/-- The character class used by the grouping regexes: underscore, hyphen or
whitespace (in a non-unicode JS regex the class with a dash between an
underscore and the whitespace escape denotes exactly these literals). -/
def sepChar (c : Char) : Bool := c = '_' ∨ c = '-' ∨ jsWs c

/-- Lower-casing a character; the repository's data is ASCII, where this
agrees with JS toLowerCase. -/
def jsLower (c : Char) : Char := c.toLower

/-- Replacement of every maximal whitespace run by a single space
(the global replace of a whitespace-run regex by a space).  The boolean
argument records whether the previous character was inside a run. -/
def collapseWsAux : Bool → List Char → List Char
  | _, [] => []
  | prevWs, c :: rest =>
    if jsWs c then
      if prevWs then collapseWsAux true rest
      else ' ' :: collapseWsAux true rest
    else c :: collapseWsAux false rest

def collapseWs (l : List Char) : List Char := collapseWsAux false l

/-- JS String.prototype.trim: strip whitespace from both ends. -/
def jsTrim (l : List Char) : List Char :=
  ((l.dropWhile jsWs).reverse.dropWhile jsWs).reverse

/-- JS split on a whitespace-run regex: the fields between maximal
whitespace runs, with an empty leading/trailing field when the string
starts/ends with whitespace, and a single empty field for the empty
string.  The boolean argument is true while inside a whitespace run. -/
def splitWsAux : Bool → List Char → List Char → List (List Char)
  | _, acc, [] => [acc.reverse]
  | inWs, acc, c :: rest =>
    if jsWs c then
      if inWs then splitWsAux true acc rest
      else acc.reverse :: splitWsAux true [] rest
    else splitWsAux false (c :: acc) rest

def jsSplitWs (l : List Char) : List (List Char) := splitWsAux false [] l

/-- JS parseInt(s, 10): skip leading whitespace, optional sign, then the
maximal run of decimal digits; NaN (here: none) when that run is empty. -/
def digitsValue (l : List Char) : ℕ :=
  l.foldl (fun n c => 10 * n + (c.toNat - '0'.toNat)) 0

def parseInt10 (s : String) : Option ℤ :=
  let l := s.data.dropWhile jsWs
  match l with
  | '-' :: rest =>
    let ds := rest.takeWhile jsDigit
    if ds = [] then none else some (-(digitsValue ds : ℤ))
  | '+' :: rest =>
    let ds := rest.takeWhile jsDigit
    if ds = [] then none else some (digitsValue ds : ℤ)
  | l' =>
    let ds := l'.takeWhile jsDigit
    if ds = [] then none else some (digitsValue ds : ℤ)

/-- JS a.includes(b): b occurs as a contiguous substring of a. -/
def jsIncludes : List Char → List Char → Bool
  | hay, needle =>
    needle.isPrefixOf hay ||
      match hay with
      | [] => false
      | _ :: t => jsIncludes t needle

/-! ### The match scorer (src/core/metadata/matcher.js) -/

/-- normalizeString: lowercase, remove the characters that are neither word
characters nor whitespace, collapse whitespace runs to single spaces, trim. -/
def normalizeString (s : String) : String :=
  ⟨jsTrim (collapseWs ((s.data.map jsLower).filter
      (fun c => jsWordChar c ∨ jsWs c)))⟩

/-- JS string truthiness for an optional string field. -/
def truthy : Option String → Bool
  | some s => s ≠ ""
  | none => false

/-- One word of the first string counts as matching when it has at least
three characters and some word of the second string with at least three
characters is equal to it or contains it or is contained in it (the inner
loop of calculateStringMatchScore with its break). -/
def wordMatches (words2 : List (List Char)) (w1 : List Char) : Bool :=
  3 ≤ w1.length ∧ words2.any (fun w2 =>
    3 ≤ w2.length ∧ (w1 = w2 ∨ jsIncludes w1 w2 ∨ jsIncludes w2 w1))

/-- calculateStringMatchScore: exact 1 / containment 0.8·(min/max) /
blend 0.7·wordSimilarity + 0.3·positional character similarity. -/
def calculateStringMatchScore (str1 str2 : String) : ℚ :=
  if str1 = "" ∨ str2 = "" then 0
  else
    let norm1 := (normalizeString str1).data
    let norm2 := (normalizeString str2).data
    if norm1 = norm2 then 1
    else if jsIncludes norm1 norm2 ∨ jsIncludes norm2 norm1 then
      (8 / 10 : ℚ) * ((min norm1.length norm2.length : ℚ) /
        (max norm1.length norm2.length : ℚ))
    else
      let words1 := jsSplitWs norm1
      let words2 := jsSplitWs norm2
      let matchingWords := (words1.filter (wordMatches words2)).length
      let wordSimilarity :=
        (matchingWords : ℚ) / (max words1.length words2.length : ℚ)
      let sameCharCount :=
        ((norm1.zip norm2).filter (fun p => p.1 = p.2)).length
      let charSimilarity :=
        (sameCharCount : ℚ) / (max norm1.length norm2.length : ℚ)
      wordSimilarity * (7 / 10 : ℚ) + charSimilarity * (3 / 10 : ℚ)

/-- A series reference as read by the scorer: a name and an optional
position (stringified; JS compares positions via toString and parseInt). -/
structure SeriesRef where
  name : String
  position : Option String
deriving DecidableEq, Repr

/-- An author entry of a metadata candidate. -/
structure PersonRef where
  name : String
deriving DecidableEq, Repr

/-- The fields of the file-derived identity read by the scorer. -/
structure FileInfo where
  title : Option String
  author : Option String
  series : Option SeriesRef
deriving DecidableEq, Repr

/-- The fields of a provider metadata candidate read by the scorer. -/
structure Metadata where
  title : Option String
  authors : List PersonRef
  series : Option SeriesRef
deriving DecidableEq, Repr

/-- The series-position sub-score: 1 when the positions are both truthy and
equal as strings, or both parse as equal integers; otherwise 0. -/
def seriesPositionScore (p1 p2 : Option String) : ℚ :=
  match p1, p2 with
  | some a, some b =>
    if a ≠ "" ∧ b ≠ "" then
      if a = b then 1
      else
        match parseInt10 a, parseInt10 b with
        | some x, some y => if x = y then 1 else 0
        | _, _ => 0
    else 0
  | _, _ => 0

/-- The weighted contribution and weight of the title criterion. -/
def titlePart (fi : FileInfo) (md : Metadata) : ℚ × ℚ :=
  match fi.title, md.title with
  | some t1, some t2 =>
    if t1 ≠ "" ∧ t2 ≠ "" then (calculateStringMatchScore t1 t2 * 60, 60)
    else (0, 0)
  | _, _ => (0, 0)

/-- The weighted contribution and weight of the author criterion: best
match over all candidate authors (Math.max of the scores and 0). -/
def authorPart (fi : FileInfo) (md : Metadata) : ℚ × ℚ :=
  match fi.author with
  | some a =>
    if a ≠ "" ∧ md.authors ≠ [] then
      ((md.authors.map (fun p => calculateStringMatchScore a p.name)).foldr
          max 0 * 30, 30)
    else (0, 0)
  | none => (0, 0)

/-- The weighted contribution and weight of the series criterion:
0.7·(name match) + 0.3·(position match), times 10. -/
def seriesPart (fi : FileInfo) (md : Metadata) : ℚ × ℚ :=
  match fi.series, md.series with
  | some s1, some s2 =>
    ((calculateStringMatchScore s1.name s2.name * (7 / 10 : ℚ) +
        seriesPositionScore s1.position s2.position * (3 / 10 : ℚ)) * 10, 10)
  | _, _ => (0, 0)

/-- calculateMatchScore: the weighted sum over the present criteria,
normalized by the achievable weight; 0 when an argument is null or when no
criterion applies. -/
def calculateMatchScore (fileInfo : Option FileInfo)
    (metadata : Option Metadata) : ℚ :=
  match fileInfo, metadata with
  | some fi, some md =>
    let t := titlePart fi md
    let a := authorPart fi md
    let s := seriesPart fi md
    let score := t.1 + a.1 + s.1
    let maxScore := t.2 + a.2 + s.2
    if maxScore = 0 then 0 else score / maxScore
  | _, _ => 0

/-- Stable insertion of an element after every element it does not have to
precede: the unique behaviour of any stable sort, which is how the
ECMAScript sort with a consistent comparator is modelled. -/
def stInsert (le : α → α → Bool) (x : α) : List α → List α
  | [] => [x]
  | y :: ys => if le y x then y :: stInsert le x ys else x :: y :: ys

/-- Stable sort (models the ECMAScript stable Array.prototype.sort). -/
def stableSort (le : α → α → Bool) (l : List α) : List α :=
  l.foldl (fun acc x => stInsert le x acc) []

/-- rankMetadataResults: 0-guard on degenerate input, attach a match score
to every result, sort descending by it (stable).  A returned element is
the pair of the original record and its attached score. -/
def rankMetadataResults (fileInfo : Option FileInfo)
    (results : Option (List Metadata)) : List (Metadata × ℚ) :=
  match fileInfo, results with
  | some fi, some rs =>
    let scored := rs.map (fun r => (r, calculateMatchScore (some fi) (some r)))
    stableSort (fun x y => y.2 ≤ x.2) scored
  | _, _ => []

/-! ### Scorer lemmas -/

theorem ratio_nonneg (a b : ℕ) : 0 ≤ (a : ℚ) / (b : ℚ) := by positivity

theorem ratio_le_one {a b : ℕ} (h : a ≤ b) : (a : ℚ) / (b : ℚ) ≤ 1 := by
  rcases Nat.eq_zero_or_pos b with hb | hb
  · subst hb
    simp [Nat.le_zero.mp h]
  · exact div_le_one_of_le₀ (by exact_mod_cast h) (by positivity)

theorem foldrMax_nonneg (l : List ℚ) : 0 ≤ l.foldr max 0 := by
  induction l with
  | nil => simp
  | cons x xs ih => simpa using Or.inr ih

theorem foldrMax_le_one {l : List ℚ} (h : ∀ x ∈ l, x ≤ 1) :
    l.foldr max 0 ≤ 1 := by
  induction l with
  | nil => norm_num
  | cons x xs ih =>
    simp only [List.foldr_cons, max_le_iff]
    exact ⟨h x (by simp), ih fun y hy => h y (by simp [hy])⟩

theorem le_foldrMax {l : List ℚ} {x : ℚ} (h : x ∈ l) : x ≤ l.foldr max 0 := by
  induction l with
  | nil => simp at h
  | cons y ys ih =>
    rcases List.mem_cons.mp h with rfl | h2
    · simp
    · simp only [List.foldr_cons, le_max_iff]
      exact Or.inr (ih h2)

/-- The string-match sub-score is always within the unit interval. -/
theorem stringMatchScore_bounds (s1 s2 : String) :
    0 ≤ calculateStringMatchScore s1 s2 ∧ calculateStringMatchScore s1 s2 ≤ 1 := by
  unfold calculateStringMatchScore
  split
  · norm_num
  · dsimp only
    split
    · norm_num
    · split
      · set a := (normalizeString s1).data.length with ha
        set b := (normalizeString s2).data.length with hb
        have h1 : (0 : ℚ) ≤ (a : ℚ) ⊓ (b : ℚ) := le_min (by positivity) (by positivity)
        have h2 : ((a : ℚ) ⊓ (b : ℚ)) ≤ (a : ℚ) ⊔ (b : ℚ) := min_le_max
        have h3 : (0 : ℚ) ≤ ((a : ℚ) ⊓ (b : ℚ)) / ((a : ℚ) ⊔ (b : ℚ)) :=
          div_nonneg h1 (le_trans h1 h2)
        have h4 := div_le_one_of_le₀ h2 (le_trans h1 h2)
        constructor <;> nlinarith
      · set mw := (List.filter (wordMatches (jsSplitWs (normalizeString s2).data))
          (jsSplitWs (normalizeString s1).data)).length with hmw
        set w1 := (jsSplitWs (normalizeString s1).data).length with hw1d
        set w2 := (jsSplitWs (normalizeString s2).data).length with hw2d
        set sc := (List.filter (fun p => decide (p.1 = p.2))
          ((normalizeString s1).data.zip (normalizeString s2).data)).length with hsc
        set a := (normalizeString s1).data.length with ha
        set b := (normalizeString s2).data.length with hb
        have hmaxw : (0 : ℚ) ≤ (w1 : ℚ) ⊔ (w2 : ℚ) :=
          le_trans (Nat.cast_nonneg w1) (le_max_left _ _)
        have hmaxc : (0 : ℚ) ≤ (a : ℚ) ⊔ (b : ℚ) :=
          le_trans (Nat.cast_nonneg a) (le_max_left _ _)
        have hmwle : (mw : ℚ) ≤ (w1 : ℚ) ⊔ (w2 : ℚ) :=
          le_trans (by exact_mod_cast List.length_filter_le _ _) (le_max_left _ _)
        have hscle : (sc : ℚ) ≤ (a : ℚ) ⊔ (b : ℚ) := by
          have hz : sc ≤ a := by
            have := List.length_filter_le (fun p => decide (p.1 = p.2))
              ((normalizeString s1).data.zip (normalizeString s2).data)
            have hzz := List.length_zip ((normalizeString s1).data)
              ((normalizeString s2).data)
            omega
          exact le_trans (by exact_mod_cast hz) (le_max_left _ _)
        have q1 : (0 : ℚ) ≤ (mw : ℚ) / ((w1 : ℚ) ⊔ (w2 : ℚ)) :=
          div_nonneg (by positivity) hmaxw
        have q2 := div_le_one_of_le₀ hmwle hmaxw
        have q3 : (0 : ℚ) ≤ (sc : ℚ) / ((a : ℚ) ⊔ (b : ℚ)) :=
          div_nonneg (by positivity) hmaxc
        have q4 := div_le_one_of_le₀ hscle hmaxc
        constructor <;> nlinarith

/-- A nonempty string matches itself exactly. -/
theorem stringMatchScore_self {s : String} (h : s ≠ "") :
    calculateStringMatchScore s s = 1 := by
  unfold calculateStringMatchScore
  simp [h]

theorem titlePart_bounds (fi : FileInfo) (md : Metadata) :
    0 ≤ (titlePart fi md).1 ∧ (titlePart fi md).1 ≤ (titlePart fi md).2 ∧
      0 ≤ (titlePart fi md).2 := by
  unfold titlePart
  rcases fi.title with _ | t1 <;> rcases md.title with _ | t2 <;>
    simp only
  · norm_num
  · norm_num
  · norm_num
  · split
    · have := stringMatchScore_bounds t1 t2
      dsimp only
      refine ⟨by nlinarith [this.1], by nlinarith [this.2], by norm_num⟩
    · norm_num

theorem authorPart_bounds (fi : FileInfo) (md : Metadata) :
    0 ≤ (authorPart fi md).1 ∧ (authorPart fi md).1 ≤ (authorPart fi md).2 ∧
      0 ≤ (authorPart fi md).2 := by
  unfold authorPart
  rcases fi.author with _ | a
  · norm_num
  · simp only
    split
    · have h0 := foldrMax_nonneg
        (md.authors.map (fun p => calculateStringMatchScore a p.name))
      have h1 := foldrMax_le_one
        (l := md.authors.map (fun p => calculateStringMatchScore a p.name))
        (by
          intro x hx
          rcases List.mem_map.mp hx with ⟨p, _, rfl⟩
          exact (stringMatchScore_bounds a p.name).2)
      dsimp only
      refine ⟨by nlinarith, by nlinarith, by norm_num⟩
    · norm_num

theorem seriesPositionScore_bounds (p1 p2 : Option String) :
    0 ≤ seriesPositionScore p1 p2 ∧ seriesPositionScore p1 p2 ≤ 1 := by
  unfold seriesPositionScore
  rcases p1 with _ | a <;> rcases p2 with _ | b <;> simp only
  · norm_num
  · norm_num
  · norm_num
  · split
    · split
      · norm_num
      · split
        · split <;> norm_num
        · norm_num
    · norm_num

theorem seriesPart_bounds (fi : FileInfo) (md : Metadata) :
    0 ≤ (seriesPart fi md).1 ∧ (seriesPart fi md).1 ≤ (seriesPart fi md).2 ∧
      0 ≤ (seriesPart fi md).2 := by
  unfold seriesPart
  rcases fi.series with _ | s1 <;> rcases md.series with _ | s2 <;> simp only
  · norm_num
  · norm_num
  · norm_num
  · have hn := stringMatchScore_bounds s1.name s2.name
    have hp := seriesPositionScore_bounds s1.position s2.position
    refine ⟨by nlinarith [hn.1, hp.1], by nlinarith [hn.2, hp.2], by norm_num⟩

theorem matchScore_nonneg (fi : Option FileInfo) (md : Option Metadata) :
    0 ≤ calculateMatchScore fi md := by
  unfold calculateMatchScore
  rcases fi with _ | fi <;> rcases md with _ | md <;> simp only
  · norm_num
  · norm_num
  · norm_num
  · split
    · norm_num
    · have ht := titlePart_bounds fi md
      have ha := authorPart_bounds fi md
      have hs := seriesPart_bounds fi md
      apply div_nonneg
      · nlinarith [ht.1, ha.1, hs.1]
      · nlinarith [ht.2.2, ha.2.2, hs.2.2]

theorem matchScore_le_one (fi : Option FileInfo) (md : Option Metadata) :
    calculateMatchScore fi md ≤ 1 := by
  unfold calculateMatchScore
  rcases fi with _ | fi <;> rcases md with _ | md <;> simp only
  · norm_num
  · norm_num
  · norm_num
  · split
    · norm_num
    · have ht := titlePart_bounds fi md
      have ha := authorPart_bounds fi md
      have hs := seriesPart_bounds fi md
      apply div_le_one_of_le₀
      · nlinarith [ht.2.1, ha.2.1, hs.2.1]
      · nlinarith [ht.2.2, ha.2.2, hs.2.2]

theorem foldrMax_eq_one {l : List ℚ} (hmem : (1 : ℚ) ∈ l)
    (hle : ∀ x ∈ l, x ≤ 1) : l.foldr max 0 = 1 :=
  le_antisymm (foldrMax_le_one hle) (le_foldrMax hmem)

/-- C1: calculateMatchScore always lies in [0,1]; and when both sides carry
the same (truthy) title and the identity's (truthy) author equals one of the
candidate's authors, with no series present on both sides, the score is
exactly 1. -/
theorem claim_score_bounds_and_perfect_match :
    (∀ (fi : Option FileInfo) (md : Option Metadata),
      0 ≤ calculateMatchScore fi md ∧ calculateMatchScore fi md ≤ 1) ∧
    (∀ (fi : FileInfo) (md : Metadata) (t a : String),
      fi.title = some t → md.title = some t → t ≠ "" →
      fi.author = some a → a ≠ "" →
      (∃ p ∈ md.authors, p.name = a) →
      (fi.series = none ∨ md.series = none) →
      calculateMatchScore (some fi) (some md) = 1) := by
  constructor
  · exact fun fi md => ⟨matchScore_nonneg fi md, matchScore_le_one fi md⟩
  · intro fi md t a hft hmt ht hfa ha hmem hser
    have htp : titlePart fi md = (60, 60) := by
      unfold titlePart
      rw [hft, hmt]
      simp [ht, stringMatchScore_self ht]
    have hne : md.authors ≠ [] := by
      rcases hmem with ⟨p, hp, _⟩
      intro hnil
      simp [hnil] at hp
    have hap : authorPart fi md = (30, 30) := by
      unfold authorPart
      rw [hfa]
      simp only [ha, hne, ne_eq, not_false_iff, true_and, if_true]
      have : (md.authors.map (fun p => calculateStringMatchScore a p.name)).foldr
          max 0 = 1 := by
        apply foldrMax_eq_one
        · rcases hmem with ⟨p, hp, hpa⟩
          refine List.mem_map.mpr ⟨p, hp, ?_⟩
          rw [hpa, stringMatchScore_self ha]
        · intro x hx
          rcases List.mem_map.mp hx with ⟨p, _, rfl⟩
          exact (stringMatchScore_bounds a p.name).2
      rw [this]
      norm_num
    have hsp : seriesPart fi md = (0, 0) := by
      rcases hser with h | h
      · unfold seriesPart
        rw [h]
      · unfold seriesPart
        rw [h]
        rcases fi.series with _ | s <;> rfl
    simp only [calculateMatchScore, htp, hap, hsp]
    norm_num

/-- C1 witness: a concrete identity/candidate pair with identical title and
author and no series, scored exactly 1. -/
theorem claim_score_bounds_and_perfect_match_witness :
    calculateMatchScore (some ⟨some "Project Hail Mary", some "Andy Weir", none⟩)
      (some ⟨some "Project Hail Mary", [⟨"Andy Weir"⟩], none⟩) = 1 :=
  claim_score_bounds_and_perfect_match.2
    ⟨some "Project Hail Mary", some "Andy Weir", none⟩
    ⟨some "Project Hail Mary", [⟨"Andy Weir"⟩], none⟩
    "Project Hail Mary" "Andy Weir" rfl rfl (by decide) rfl (by decide)
    ⟨⟨"Andy Weir"⟩, by simp, rfl⟩ (Or.inl rfl)

/-- The blend formula exactly as the claim words it, including the cap of
the word-overlap count at min(wordCount1, wordCount2). -/
def claimBlendCapped (s1 s2 : String) : ℚ :=
  let n1 := (normalizeString s1).data
  let n2 := (normalizeString s2).data
  let words1 := jsSplitWs n1
  let words2 := jsSplitWs n2
  let capped := min ((words1.filter (wordMatches words2)).length)
    (min words1.length words2.length)
  let posCount := ((n1.zip n2).filter (fun p => p.1 = p.2)).length
  (7 / 10 : ℚ) * ((capped : ℚ) / (max words1.length words2.length : ℚ)) +
    (3 / 10 : ℚ) * ((posCount : ℚ) / (max n1.length n2.length : ℚ))

/-- The blend formula without the cap: the word-overlap count is the number
of words of the first string of length at least 3 that are equal to, contain
or are contained in some word of the second string of length at least 3. -/
def claimBlendUncapped (s1 s2 : String) : ℚ :=
  let n1 := (normalizeString s1).data
  let n2 := (normalizeString s2).data
  let words1 := jsSplitWs n1
  let words2 := jsSplitWs n2
  let overlap := (words1.filter (wordMatches words2)).length
  let posCount := ((n1.zip n2).filter (fun p => p.1 = p.2)).length
  (7 / 10 : ℚ) * ((overlap : ℚ) / (max words1.length words2.length : ℚ)) +
    (3 / 10 : ℚ) * ((posCount : ℚ) / (max n1.length n2.length : ℚ))

/-- C4 counterexample: for the non-empty strings "aaa bbb" and "aaabbb"
(normalized forms neither equal nor contained in one another) the code does
not cap the word-overlap count at min(wordCount1, wordCount2): both words of
the first string match the single word of the second, so the code returns
32/35 while the claim formula with the cap yields 79/140. -/
theorem claim_blend_cap_counterexample :
    ("aaa bbb" : String) ≠ "" ∧ ("aaabbb" : String) ≠ "" ∧
    normalizeString "aaa bbb" ≠ normalizeString "aaabbb" ∧
    jsIncludes (normalizeString "aaa bbb").data (normalizeString "aaabbb").data
      = false ∧
    jsIncludes (normalizeString "aaabbb").data (normalizeString "aaa bbb").data
      = false ∧
    calculateStringMatchScore "aaa bbb" "aaabbb" ≠
      claimBlendCapped "aaa bbb" "aaabbb" := by
  refine ⟨by decide, by decide, by decide, by decide, by decide, ?_⟩
  have hf : (List.filter (wordMatches (jsSplitWs (normalizeString "aaabbb").data))
      (jsSplitWs (normalizeString "aaa bbb").data)).length = 2 := by decide
  have hz : (((normalizeString "aaa bbb").data.zip
      (normalizeString "aaabbb").data).filter (fun p => p.1 = p.2)).length = 5 := by
    decide
  have hw1 : (jsSplitWs (normalizeString "aaa bbb").data).length = 2 := by decide
  have hw2 : (jsSplitWs (normalizeString "aaabbb").data).length = 1 := by decide
  have hl1 : (normalizeString "aaa bbb").data.length = 7 := by decide
  have hl2 : (normalizeString "aaabbb").data.length = 6 := by decide
  unfold calculateStringMatchScore claimBlendCapped
  rw [if_neg (not_or.mpr ⟨by decide, by decide⟩)]
  dsimp only
  rw [if_neg (show ¬(normalizeString "aaa bbb").data =
        (normalizeString "aaabbb").data from by decide),
    if_neg (not_or.mpr ⟨by decide, by decide⟩)]
  rw [hf, hz, hw1, hw2, hl1, hl2]
  norm_num

/-- C4 (amended): for every pair of non-empty strings whose normalized forms
are neither equal nor contained in one another, calculateStringMatchScore
returns 0.7·wordOverlapRatio + 0.3·characterPositionalOverlapRatio, where
the word-overlap count considers only words of length at least 3, counts a
word of the first string when it is equal to or contains or is contained in
a word of the second string, without any cap (it is bounded by the first
string's word count alone), and the positional ratio is the number of equal
characters at identical indices up to the shorter string's length, divided
by the longer string's length. -/
theorem claim_blend_formula_amended (s1 s2 : String)
    (h1 : s1 ≠ "") (h2 : s2 ≠ "")
    (hne : (normalizeString s1).data ≠ (normalizeString s2).data)
    (hc1 : jsIncludes (normalizeString s1).data (normalizeString s2).data
      = false)
    (hc2 : jsIncludes (normalizeString s2).data (normalizeString s1).data
      = false) :
    calculateStringMatchScore s1 s2 = claimBlendUncapped s1 s2 := by
  unfold calculateStringMatchScore claimBlendUncapped
  dsimp only
  rw [if_neg (not_or.mpr ⟨h1, h2⟩), if_neg hne,
    if_neg (not_or.mpr ⟨by simp [hc1], by simp [hc2]⟩)]
  ring

/-- C4 amended witness: evaluation at the counterexample pair. -/
theorem claim_blend_formula_amended_witness :
    calculateStringMatchScore "aaa bbb" "aaabbb" =
      claimBlendUncapped "aaa bbb" "aaabbb" :=
  claim_blend_formula_amended "aaa bbb" "aaabbb" (by decide) (by decide)
    (by decide) (by decide) (by decide)

/-- C9 counterexample: extending a perfectly matching title/author pair with
series fields whose names are equal after normalization (both empty) and
whose positions are equal as strings (both empty) lowers the score from 1 to
9/10, because the code treats an empty series name and position as failed
sub-matches. -/
theorem claim_series_monotone_counterexample :
    normalizeString "" = normalizeString "" ∧ ("" : String) = "" ∧
    calculateMatchScore
        (some ⟨some "Book", some "Bob", some ⟨"", some ""⟩⟩)
        (some ⟨some "Book", [⟨"Bob"⟩], some ⟨"", some ""⟩⟩) <
      calculateMatchScore
        (some ⟨some "Book", some "Bob", none⟩)
        (some ⟨some "Book", [⟨"Bob"⟩], none⟩) := by
  refine ⟨rfl, rfl, ?_⟩
  have hsm : calculateStringMatchScore "Book" "Book" = 1 :=
    stringMatchScore_self (by decide)
  have hsb : calculateStringMatchScore "Bob" "Bob" = 1 :=
    stringMatchScore_self (by decide)
  have hempty : calculateStringMatchScore "" "" = 0 := by
    unfold calculateStringMatchScore
    simp
  have hpos : seriesPositionScore (some "") (some "") = 0 := by
    unfold seriesPositionScore
    simp
  simp only [calculateMatchScore, titlePart, authorPart, seriesPart, hsm, hsb,
    hempty, hpos, List.map_cons, List.map_nil, List.foldr_cons, List.foldr_nil]
  split_ifs <;> simp_all <;> norm_num at *

/-- C9 (amended): for every identity and candidate both carrying a truthy
title and author, extending both sides with a correctly matching series —
non-empty series names equal after normalization, non-empty positions equal
as strings or as parsed integers — never lowers calculateMatchScore. -/
theorem claim_series_monotone_amended
    (fi : FileInfo) (md : Metadata) (t1 t2 a n1 n2 p1 p2 : String)
    (hft : fi.title = some t1) (hmt : md.title = some t2)
    (ht1 : t1 ≠ "") (ht2 : t2 ≠ "")
    (hfa : fi.author = some a) (ha : a ≠ "") (hne : md.authors ≠ [])
    (hfs : fi.series = none) (hms : md.series = none)
    (hn1 : n1 ≠ "") (hn2 : n2 ≠ "")
    (hnn : normalizeString n1 = normalizeString n2)
    (hp1 : p1 ≠ "") (hp2 : p2 ≠ "")
    (hpos : p1 = p2 ∨ ∃ x, parseInt10 p1 = some x ∧ parseInt10 p2 = some x) :
    calculateMatchScore (some fi) (some md) ≤
      calculateMatchScore
        (some { fi with series := some ⟨n1, some p1⟩ })
        (some { md with series := some ⟨n2, some p2⟩ }) := by
  have hname : calculateStringMatchScore n1 n2 = 1 := by
    unfold calculateStringMatchScore
    simp [hn1, hn2, hnn]
  have hpsc : seriesPositionScore (some p1) (some p2) = 1 := by
    unfold seriesPositionScore
    rcases hpos with rfl | ⟨x, hx1, hx2⟩
    · simp [hp1]
    · simp only [ne_eq, hp1, hp2, not_false_iff, and_true, true_and, if_true]
      split
      · rfl
      · rw [hx1, hx2]
        simp
  have hts : (titlePart fi md).1 = calculateStringMatchScore t1 t2 * 60 ∧
      (titlePart fi md).2 = 60 := by
    unfold titlePart
    rw [hft, hmt]
    simp [ht1, ht2]
  have hbase_t := stringMatchScore_bounds t1 t2
  have hbest := foldrMax_le_one
    (l := md.authors.map (fun p => calculateStringMatchScore a p.name))
    (by
      intro x hx
      rcases List.mem_map.mp hx with ⟨p, _, rfl⟩
      exact (stringMatchScore_bounds a p.name).2)
  have hbest0 := foldrMax_nonneg
    (md.authors.map (fun p => calculateStringMatchScore a p.name))
  have has : (authorPart fi md).1 =
      (md.authors.map (fun p => calculateStringMatchScore a p.name)).foldr
        max 0 * 30 ∧ (authorPart fi md).2 = 30 := by
    unfold authorPart
    rw [hfa]
    simp [ha, hne]
  -- the extended records have the same title and author parts
  have htx : titlePart { fi with series := some ⟨n1, some p1⟩ }
      { md with series := some ⟨n2, some p2⟩ } = titlePart fi md := by
    unfold titlePart
    rfl
  have hax : authorPart { fi with series := some ⟨n1, some p1⟩ }
      { md with series := some ⟨n2, some p2⟩ } = authorPart fi md := by
    unfold authorPart
    rfl
  have hsx : seriesPart { fi with series := some ⟨n1, some p1⟩ }
      { md with series := some ⟨n2, some p2⟩ } = (10, 10) := by
    unfold seriesPart
    simp only [hname, hpsc]
    norm_num
  have hs0 : seriesPart fi md = (0, 0) := by
    unfold seriesPart
    rw [hfs]
  simp only [calculateMatchScore, htx, hax, hsx, hs0, hts.1, hts.2, has.1,
    has.2]
  norm_num
  rw [div_le_div_iff₀ (by norm_num) (by norm_num)]
  nlinarith [hbase_t.1, hbase_t.2]

/-- C9 amended witness: a concrete matching pair extended with the series
"Saga" position "3" on both sides keeps its score. -/
theorem claim_series_monotone_amended_witness :
    calculateMatchScore (some ⟨some "Dawn", some "Ann", none⟩)
        (some ⟨some "Dawn", [⟨"Ann"⟩], none⟩) ≤
      calculateMatchScore
        (some ⟨some "Dawn", some "Ann", some ⟨"Saga", some "3"⟩⟩)
        (some ⟨some "Dawn", [⟨"Ann"⟩], some ⟨"Saga", some "3"⟩⟩) :=
  claim_series_monotone_amended ⟨some "Dawn", some "Ann", none⟩
    ⟨some "Dawn", [⟨"Ann"⟩], none⟩ "Dawn" "Dawn" "Ann" "Saga" "Saga" "3" "3"
    rfl rfl (by decide) (by decide) rfl (by decide) (by decide) rfl rfl
    (by decide) (by decide) rfl (by decide) (by decide) (Or.inl rfl)

/-! ### Stable sort lemmas -/

theorem stInsert_perm (le : α → α → Bool) (x : α) (l : List α) :
    List.Perm (stInsert le x l) (x :: l) := by
  induction l with
  | nil => rfl
  | cons y ys ih =>
    unfold stInsert
    split
    · exact ((ih.cons y).trans (List.Perm.swap x y ys))
    · rfl

theorem stableSort_perm (le : α → α → Bool) (l : List α) :
    List.Perm (stableSort le l) l := by
  suffices h : ∀ (acc : List α),
      List.Perm (l.foldl (fun a x => stInsert le x a) acc) (acc ++ l) by
    simpa using h []
  induction l with
  | nil =>
    intro acc
    simp
  | cons x xs ih =>
    intro acc
    have h1 := ih (stInsert le x acc)
    have h2 : List.Perm (stInsert le x acc ++ xs) ((x :: acc) ++ xs) :=
      (stInsert_perm le x acc).append_right xs
    have h3 : List.Perm ((x :: acc) ++ xs) (acc ++ x :: xs) := by
      simp only [List.cons_append]
      exact List.perm_middle.symm
    exact (h1.trans h2).trans h3

/-- C10: the ranking entry point never raises on degenerate input — a null
identity or null/non-array result list yields the empty sequence; on valid
input every returned element carries an attached score equal to
calculateMatchScore of that element; and calculateMatchScore itself returns
0 whenever either of its arguments is null. -/
theorem claim_rank_degenerate_and_scores :
    (∀ results, rankMetadataResults none results = []) ∧
    (∀ fileInfo, rankMetadataResults fileInfo none = []) ∧
    (∀ (fi : FileInfo) (rs : List Metadata) (p : Metadata × ℚ),
      p ∈ rankMetadataResults (some fi) (some rs) →
      p.2 = calculateMatchScore (some fi) (some p.1)) ∧
    (∀ md, calculateMatchScore none md = 0) ∧
    (∀ fi, calculateMatchScore fi none = 0) := by
  refine ⟨fun results => rfl, ?_, ?_, fun md => rfl, ?_⟩
  · intro fileInfo
    rcases fileInfo with _ | fi <;> rfl
  · intro fi rs p hp
    unfold rankMetadataResults at hp
    have hperm := stableSort_perm (fun x y : Metadata × ℚ => y.2 ≤ x.2)
      (rs.map (fun r => (r, calculateMatchScore (some fi) (some r))))
    have hmem := hperm.mem_iff.mp hp
    rcases List.mem_map.mp hmem with ⟨r, _, rfl⟩
    rfl
  · intro fi
    rcases fi with _ | fi <;> rfl

/-- C10 witness: ranking a concrete one-element result list attaches to the
returned element its own calculateMatchScore. -/
theorem claim_rank_degenerate_and_scores_witness :
    ((⟨some "T", [], none⟩, (1 : ℚ)) : Metadata × ℚ).2 =
      calculateMatchScore (some ⟨some "T", none, none⟩)
        (some ⟨some "T", [], none⟩) := by
  have h := claim_rank_degenerate_and_scores.2.2.1 ⟨some "T", none, none⟩
    [⟨some "T", [], none⟩] (⟨some "T", [], none⟩, (1 : ℚ))
  apply h
  have ht : calculateMatchScore (some ⟨some "T", none, none⟩)
      (some ⟨some "T", [], none⟩) = 1 := by
    have hs : calculateStringMatchScore "T" "T" = 1 :=
      stringMatchScore_self (by decide)
    simp only [calculateMatchScore, titlePart, authorPart, seriesPart, hs]
    split_ifs <;> simp_all <;> norm_num at *
  unfold rankMetadataResults stableSort stInsert
  simp only [List.map_cons, List.map_nil, List.foldl_cons, List.foldl_nil, ht]
  exact List.mem_singleton.mpr rfl

/-! ### Node posix path primitives used by the grouper and organizer -/

/-- Strip trailing path separators (they are ignored by basename/extname). -/
def dropTrailingSlashes (l : List Char) : List Char :=
  (l.reverse.dropWhile (fun c => c = '/')).reverse

/-- The last path segment after ignoring trailing separators. -/
def lastSegment (l : List Char) : List Char :=
  ((dropTrailingSlashes l).reverse.takeWhile (fun c => c ≠ '/')).reverse

/-- Node path.basename without an extension argument. -/
def pathBasename (p : String) : String := ⟨lastSegment p.data⟩

/-- Node path.basename with an extension argument: the extension suffix is
removed unless the basename is the extension itself. -/
def pathBasenameExt (p ext : String) : String :=
  let b := pathBasename p
  if ext ≠ "" ∧ b ≠ ext ∧ ext.data.isSuffixOf b.data then
    ⟨b.data.take (b.data.length - ext.data.length)⟩
  else b

/-- Node path.extname: the part of the last segment from its final dot,
empty when there is no dot, the dot leads the segment, or the segment is
exactly two dots. -/
def pathExtname (p : String) : String :=
  let b := lastSegment p.data
  let afterDot := (b.reverse.takeWhile (fun c => c ≠ '.')).length
  if afterDot = b.length then ""
  else
    let j := b.length - afterDot - 1
    if j = 0 ∨ b = ['.', '.'] then "" else ⟨b.drop j⟩

/-! ### The grouping regexes (src/core/filesystem/scanner.js)

Each JS pattern is embedded as a dedicated matcher; in every pattern the
adjacent greedy pieces range over disjoint character classes, so greedy
matching without backtracking is exact.  A matcher receives the suffix at
the attempted position and returns the consumed length together with the
captured digit run; leftmost-match search tries every position in order. -/

/-- Leftmost-match search: apply the matcher at position 0, 1, … and return
the first hit with its start index. -/
def searchAt (f : List Char → Option α) : List Char → Option (ℕ × α)
  | [] => (f []).map (fun a => (0, a))
  | c :: t =>
    match f (c :: t) with
    | some a => some (0, a)
    | none => (searchAt f t).map (fun q => (q.1 + 1, q.2))

/-- Case-insensitive literal prefix (the token is given in lowercase). -/
def ciPrefix (tok l : List Char) : Bool :=
  (l.take tok.length).map Char.toLower = tok ∧ tok.length ≤ l.length

/-- Matcher for a token followed by optional separators and a digit run,
with trailing separators also consumed (the strip patterns for embedded
track/chapter markers). -/
def matchTokenNumStrip (tok : List Char) (l : List Char) :
    Option (ℕ × List Char) :=
  if ciPrefix tok l then
    let rest := l.drop tok.length
    let seps := rest.takeWhile sepChar
    let rest2 := rest.drop seps.length
    let ds := rest2.takeWhile jsDigit
    if ds = [] then none
    else
      let seps2 := (rest2.drop ds.length).takeWhile sepChar
      some (tok.length + seps.length + ds.length + seps2.length, ds)
  else none

/-- Matcher for a token followed by optional separators and a digit run,
without trailing separators (the capture patterns of the track-number
extractor). -/
def matchTokenNum (tok : List Char) (l : List Char) : Option (ℕ × List Char) :=
  if ciPrefix tok l then
    let rest := l.drop tok.length
    let seps := rest.takeWhile sepChar
    let rest2 := rest.drop seps.length
    let ds := rest2.takeWhile jsDigit
    if ds = [] then none
    else some (tok.length + seps.length + ds.length, ds)
  else none

/-- Anchored matcher for a leading digit run followed by at least one
separator. -/
def matchLeadingNum (l : List Char) : Option (ℕ × List Char) :=
  let ds := l.takeWhile jsDigit
  if ds = [] then none
  else
    let seps := (l.drop ds.length).takeWhile sepChar
    if seps = [] then none else some (ds.length + seps.length, ds)

/-- Matcher for a trailing marker: whitespace, token, optional whitespace,
digits, end of string (the part/disc strip patterns). -/
def matchTrailingTokenNum (tok : List Char) (l : List Char) :
    Option (ℕ × Unit) :=
  let ws := l.takeWhile jsWs
  if ws = [] then none
  else
    let rest := l.drop ws.length
    if ciPrefix tok rest then
      let rest2 := rest.drop tok.length
      let ws2 := rest2.takeWhile jsWs
      let rest3 := rest2.drop ws2.length
      let ds := rest3.takeWhile jsDigit
      if ds = [] ∨ rest3.drop ds.length ≠ [] then none
      else some (l.length, ())
    else none

/-- Matcher for a whitespace character, a captured digit run, optional
whitespace, a dot and a non-empty dot-free tail reaching the end of the
string (the trailing track pattern before the extension). -/
def matchWsNumDotTail (l : List Char) : Option (ℕ × List Char) :=
  match l with
  | c :: rest =>
    if jsWs c then
      let ds := rest.takeWhile jsDigit
      if ds = [] then none
      else
        let rest2 := rest.drop ds.length
        let ws2 := rest2.takeWhile jsWs
        let rest3 := rest2.drop ws2.length
        match rest3 with
        | '.' :: tail =>
          if tail ≠ [] ∧ tail.all (fun d => d ≠ '.') then
            some (l.length, ds)
          else none
        | _ => none
    else none
  | [] => none

/-- Replace the leftmost match of a matcher by the empty string. -/
def replaceFirst (f : List Char → Option (ℕ × α)) (l : List Char) :
    List Char :=
  match searchAt f l with
  | some (start, len, _) => l.take start ++ l.drop (start + len)
  | none => l

/-- Global replacement of every run of underscores and hyphens by a single
space. -/
def replaceSepRunsAux : Bool → List Char → List Char
  | _, [] => []
  | inRun, c :: rest =>
    if c = '_' ∨ c = '-' then
      if inRun then replaceSepRunsAux true rest
      else ' ' :: replaceSepRunsAux true rest
    else c :: replaceSepRunsAux false rest

def replaceSepRuns (l : List Char) : List Char := replaceSepRunsAux false l

/-! ### The file scanner grouping (src/core/filesystem/scanner.js) -/

/-- The file snapshot consumed by the grouper (the created/modified stat
timestamps are never read by it and are omitted). -/
structure FileEntry where
  path : String
  name : String
  directory : String
  extension : String
  size : ℕ
deriving DecidableEq, Repr

/-- A group of files believed to form one audiobook. -/
structure BookGroup where
  key : String
  name : String
  directory : String
  files : List FileEntry
  totalSize : ℕ
deriving DecidableEq, Repr

/-- The five sequential strip replacements shared by the key and name
cleanups: leading number, embedded track marker, embedded chapter marker,
trailing part marker, trailing disc marker. -/
def stripMarkers (l : List Char) : List Char :=
  let s1 := match matchLeadingNum l with
    | some (len, _) => l.drop len
    | none => l
  let s2 := replaceFirst (matchTokenNumStrip ['t', 'r', 'a', 'c', 'k']) s1
  let s3 := replaceFirst (matchTokenNumStrip ['c', 'h', 'a', 'p', 't', 'e', 'r']) s2
  let s4 := replaceFirst (matchTrailingTokenNum ['p', 'a', 'r', 't']) s3
  replaceFirst (matchTrailingTokenNum ['d', 'i', 's', 'c']) s4

/-- FileScanner._extractTrackNumber: the four patterns tried in order. -/
def extractTrackNumber (filename : String) : Option ℕ :=
  match searchAt (matchTokenNum ['t', 'r', 'a', 'c', 'k']) filename.data with
  | some (_, _, ds) => some (digitsValue ds)
  | none =>
    match searchAt (matchTokenNum ['c', 'h', 'a', 'p', 't', 'e', 'r'])
        filename.data with
    | some (_, _, ds) => some (digitsValue ds)
    | none =>
      match matchLeadingNum filename.data with
      | some (_, ds) => some (digitsValue ds)
      | none =>
        match searchAt matchWsNumDotTail filename.data with
        | some (_, _, ds) => some (digitsValue ds)
        | none => none

/-- The sort key used inside a group: the extracted track number, defaulted
to 0 (the JS fallback with the or-operator). -/
def trackNumber (filename : String) : ℕ := (extractTrackNumber filename).getD 0

/-- FileScanner._identifyBookKey: strip markers from the base name, fall
back to the unstripped base name when over-stripped, then scope by the
parent directory's base name and lowercase the whole key. -/
def identifyBookKey (file : FileEntry) : String :=
  let baseName := (pathBasenameExt file.name file.extension).data
  let stripped := jsTrim (stripMarkers baseName)
  let bookName :=
    if stripped.length < 3 ∧ 0 < baseName.length then baseName else stripped
  let dirBaseName := (pathBasename file.directory).data
  ⟨(dirBaseName ++ '_' :: bookName).map jsLower⟩

/-- FileScanner._extractBookName: strip markers, replace underscore/hyphen
runs by spaces, trim. -/
def extractBookName (filename : String) : String :=
  let baseName := (pathBasenameExt filename (pathExtname filename)).data
  ⟨jsTrim (replaceSepRuns (stripMarkers baseName))⟩

/-- Insertion of a file into the book list: the first group with the same
key receives it (keys are unique among created groups, so this is the map
lookup of the source); a missing key appends a fresh group at the end. -/
def addFileToBooks (books : List BookGroup) (f : FileEntry) (key : String) :
    List BookGroup :=
  match books with
  | [] => [⟨key, extractBookName f.name, f.directory, [f], f.size⟩]
  | b :: rest =>
    if b.key = key then
      { b with files := b.files ++ [f], totalSize := b.totalSize + f.size } ::
        rest
    else b :: addFileToBooks rest f key

/-- Code-unit comparison of character lists (the model of the default
localeCompare ordering; only stability and permutation matter to the
claims, and on the ASCII data considered the orders agree). -/
def charListLe : List Char → List Char → Bool
  | [], _ => true
  | _ :: _, [] => false
  | x :: xs, y :: ys => if x = y then charListLe xs ys else decide (x < y)

/-- The comparator of the pre-grouping sort: a.name.localeCompare(b.name). -/
def nameLe (a b : FileEntry) : Bool := charListLe a.name.data b.name.data

/-- The comparator of the within-group sort: extracted track number
ascending (the JS comparator numA - numB). -/
def trackLe (x y : FileEntry) : Bool :=
  decide (trackNumber x.name ≤ trackNumber y.name)

/-- FileScanner.groupFilesByBooks: sort by name (localeCompare), fold files
into groups, then sort each group's files by extracted track number; both
JS sorts are stable, which any stable sort models uniquely. -/
def groupFilesByBooks (files : List FileEntry) : List BookGroup :=
  let sorted := stableSort nameLe files
  let books := sorted.foldl
    (fun bs f => addFileToBooks bs f (identifyBookKey f)) []
  books.map (fun b => { b with files := stableSort trackLe b.files })

/-! ### Grouping lemmas -/

theorem addFileToBooks_flatMap (books : List BookGroup) (f : FileEntry)
    (key : String) :
    List.Perm ((addFileToBooks books f key).flatMap (fun b => b.files))
      (f :: books.flatMap (fun b => b.files)) := by
  induction books with
  | nil => simp [addFileToBooks]
  | cons b rest ih =>
    unfold addFileToBooks
    split
    · simp only [List.flatMap_cons, List.append_assoc, List.singleton_append]
      exact List.perm_middle
    · simp only [List.flatMap_cons]
      exact (List.Perm.append_left b.files ih).trans List.perm_middle

theorem foldl_addFile_flatMap (l : List FileEntry) :
    ∀ (bs : List BookGroup),
      List.Perm ((l.foldl (fun bs f => addFileToBooks bs f (identifyBookKey f))
          bs).flatMap (fun b => b.files))
        (bs.flatMap (fun b => b.files) ++ l) := by
  induction l with
  | nil =>
    intro bs
    simp
  | cons f t ih =>
    intro bs
    have h1 := ih (addFileToBooks bs f (identifyBookKey f))
    have h2 := addFileToBooks_flatMap bs f (identifyBookKey f)
    have h3 : List.Perm ((f :: bs.flatMap (fun b => b.files)) ++ t)
        (bs.flatMap (fun b => b.files) ++ f :: t) := by
      simp only [List.cons_append]
      exact List.perm_middle.symm
    exact h1.trans ((h2.append_right t).trans h3)

theorem map_sortFiles_flatMap (le : FileEntry → FileEntry → Bool)
    (gs : List BookGroup) :
    List.Perm ((gs.map (fun b =>
        { b with files := stableSort le b.files })).flatMap (fun b => b.files))
      (gs.flatMap (fun b => b.files)) := by
  induction gs with
  | nil => rfl
  | cons b rest ih =>
    simp only [List.map_cons, List.flatMap_cons]
    exact (stableSort_perm le b.files).append ih

/-- The running invariant of the grouping fold: every group is non-empty
and carries the exact sum of its file sizes. -/
def booksOk (bs : List BookGroup) : Prop :=
  ∀ b ∈ bs, b.files ≠ [] ∧ b.totalSize = (b.files.map (fun f => f.size)).sum

theorem addFileToBooks_ok {bs : List BookGroup} (f : FileEntry) (key : String)
    (h : booksOk bs) : booksOk (addFileToBooks bs f key) := by
  induction bs with
  | nil =>
    intro b hb
    simp only [addFileToBooks, List.mem_singleton] at hb
    subst hb
    simp
  | cons b rest ih =>
    have hok := h b (by simp)
    have hrest : booksOk rest := fun x hx => h x (by simp [hx])
    intro c hc
    unfold addFileToBooks at hc
    split at hc
    · rcases List.mem_cons.mp hc with rfl | hmem
      · refine ⟨by simp, ?_⟩
        simp only [List.map_append, List.sum_append, hok.2]
        simp
      · exact hrest c hmem
    · rcases List.mem_cons.mp hc with rfl | hmem
      · exact hok
      · exact ih hrest c hmem

theorem foldl_addFile_ok (l : List FileEntry) :
    ∀ (bs : List BookGroup), booksOk bs →
      booksOk (l.foldl (fun bs f => addFileToBooks bs f (identifyBookKey f))
        bs) := by
  induction l with
  | nil =>
    intro bs h
    exact h
  | cons f t ih =>
    intro bs h
    exact ih _ (addFileToBooks_ok f (identifyBookKey f) h)

/-- C3: groupFilesByBooks partitions its input — the concatenation of the
group file sequences is a permutation of the input (every input occurrence
lands in exactly one group, exactly once), no group is empty, and every
group's totalSize is the sum of its files' sizes. -/
theorem claim_grouping_partition (files : List FileEntry) :
    List.Perm ((groupFilesByBooks files).flatMap (fun b => b.files)) files ∧
    (∀ b ∈ groupFilesByBooks files, b.files ≠ []) ∧
    (∀ b ∈ groupFilesByBooks files,
      b.totalSize = (b.files.map (fun f => f.size)).sum) := by
  have hsorted := stableSort_perm nameLe files
  have hfold := foldl_addFile_flatMap (stableSort nameLe files) []
  have hfold2 : List.Perm (((stableSort nameLe files).foldl
      (fun bs f => addFileToBooks bs f (identifyBookKey f)) []).flatMap
        (fun b => b.files)) (stableSort nameLe files) := by
    simpa using hfold
  have hmap := map_sortFiles_flatMap trackLe
    ((stableSort nameLe files).foldl
      (fun bs f => addFileToBooks bs f (identifyBookKey f)) [])
  have hok := foldl_addFile_ok (stableSort nameLe files) []
    (by intro b hb; simp at hb)
  have hgdef : groupFilesByBooks files =
      ((stableSort nameLe files).foldl
        (fun bs f => addFileToBooks bs f (identifyBookKey f)) []).map
          (fun b => { b with files := stableSort trackLe b.files }) := rfl
  refine ⟨?_, ?_, ?_⟩
  · rw [hgdef]
    exact hmap.trans (hfold2.trans hsorted)
  · rw [hgdef]
    intro b hb
    rcases List.mem_map.mp hb with ⟨c, hc, rfl⟩
    have hne := (hok c hc).1
    intro hnil
    apply hne
    have hperm := stableSort_perm trackLe c.files
    have hnil2 : stableSort trackLe c.files = [] := hnil
    rw [hnil2] at hperm
    exact hperm.symm.eq_nil
  · rw [hgdef]
    intro b hb
    rcases List.mem_map.mp hb with ⟨c, hc, rfl⟩
    have hsum := ((stableSort_perm trackLe c.files).map
      (fun f => f.size)).sum_eq
    have hts : ({ c with files := stableSort trackLe c.files } :
        BookGroup).totalSize = c.totalSize := rfl
    rw [hts, (hok c hc).2]
    exact hsum.symm

/-- C3 witness: the partition facts evaluated on a concrete one-file input
and the group it produces. -/
theorem claim_grouping_partition_witness :
    List.Perm ((groupFilesByBooks
        [⟨"/d/a.mp3", "a.mp3", "/d", ".mp3", 7⟩]).flatMap (fun b => b.files))
      [⟨"/d/a.mp3", "a.mp3", "/d", ".mp3", 7⟩] ∧
    (⟨"d_a", "a", "/d", [⟨"/d/a.mp3", "a.mp3", "/d", ".mp3", 7⟩], 7⟩ :
        BookGroup).files ≠ [] ∧
    (⟨"d_a", "a", "/d", [⟨"/d/a.mp3", "a.mp3", "/d", ".mp3", 7⟩], 7⟩ :
        BookGroup).totalSize =
      ((⟨"d_a", "a", "/d", [⟨"/d/a.mp3", "a.mp3", "/d", ".mp3", 7⟩], 7⟩ :
        BookGroup).files.map (fun f => f.size)).sum :=
  ⟨(claim_grouping_partition [⟨"/d/a.mp3", "a.mp3", "/d", ".mp3", 7⟩]).1,
    (claim_grouping_partition [⟨"/d/a.mp3", "a.mp3", "/d", ".mp3", 7⟩]).2.1
      _ (by decide),
    (claim_grouping_partition [⟨"/d/a.mp3", "a.mp3", "/d", ".mp3", 7⟩]).2.2
      _ (by decide)⟩

/-- C8: the two files 01/02 - Chapter.mp3 in directory MyBook form exactly
one BookGroup with the directory-scoped key mybook_chapter, containing both
files ordered by extracted track numbers 1 then 2. -/
theorem claim_scenario_mybook :
    groupFilesByBooks
        [⟨"/lib/MyBook/01 - Chapter.mp3", "01 - Chapter.mp3", "/lib/MyBook",
            ".mp3", 100⟩,
          ⟨"/lib/MyBook/02 - Chapter.mp3", "02 - Chapter.mp3", "/lib/MyBook",
            ".mp3", 200⟩] =
      [⟨"mybook_chapter", "Chapter", "/lib/MyBook",
        [⟨"/lib/MyBook/01 - Chapter.mp3", "01 - Chapter.mp3", "/lib/MyBook",
            ".mp3", 100⟩,
          ⟨"/lib/MyBook/02 - Chapter.mp3", "02 - Chapter.mp3", "/lib/MyBook",
            ".mp3", 200⟩], 300⟩] ∧
    extractTrackNumber "01 - Chapter.mp3" = some 1 ∧
    extractTrackNumber "02 - Chapter.mp3" = some 2 := by
  refine ⟨?_, by decide, by decide⟩
  decide

/-! ### Node posix dirname, normalize and join (used by the organizer) -/

/-- The index of the last separator of a list, if any. -/
def lastSlashIdx (l : List Char) : Option ℕ :=
  let k := (l.reverse.takeWhile (fun c => c ≠ '/')).length
  if k = l.length then none else some (l.length - k - 1)

/-- Node path.dirname (posix): everything before the separator preceding
the last non-separator run; "." when there is none, with the root and
double-root special cases. -/
def pathDirname (p : String) : String :=
  if p = "" then "."
  else
    let hasRoot := p.data.head? = some '/'
    let t := dropTrailingSlashes p.data
    match lastSlashIdx t with
    | none => if hasRoot then "/" else "."
    | some 0 => "/"
    | some 1 => if hasRoot then "//" else ⟨t.take 1⟩
    | some e => ⟨t.take e⟩

/-- Split on the separator: n separators yield n+1 fields, empty fields
included (the segment view of a posix path). -/
def splitSlash : List Char → List (List Char)
  | [] => [[]]
  | c :: rest =>
    match splitSlash rest with
    | h :: t => if c = '/' then [] :: h :: t else (c :: h) :: t
    | [] => [[c]]

/-- One step of Node's normalizeString segment stack (the stack is kept
reversed, head = innermost segment): empty and dot segments are dropped, a
dot-dot segment pops a poppable top or is itself kept when ascending above
the root is allowed, any other segment is pushed. -/
def normStep (allow : Bool) (st : List (List Char)) (s : List Char) :
    List (List Char) :=
  if s = [] ∨ s = ['.'] then st
  else if s = ['.', '.'] then
    match st with
    | t :: rest =>
      if t ≠ ['.', '.'] then rest
      else if allow then s :: t :: rest else t :: rest
    | [] => if allow then [s] else []
  else s :: st

def normStack (allow : Bool) (segs : List (List Char)) : List (List Char) :=
  segs.foldl (normStep allow) []

/-- Join segments with separators. -/
def joinSegs : List (List Char) → List Char
  | [] => []
  | [s] => s
  | s :: r :: t => s ++ '/' :: joinSegs (r :: t)

/-- Node path.normalize (posix): resolve dot and dot-dot segments, collapse
separator runs, preserve rootedness and a trailing separator. -/
def posixNormalize (p : String) : String :=
  if p = "" then "."
  else
    let isAbs := p.data.head? = some '/'
    let trailing := p.data.getLast? = some '/'
    let body := joinSegs (normStack (!isAbs) (splitSlash p.data)).reverse
    if body = [] then
      if isAbs then "/" else if trailing then "./" else "."
    else
      let body2 := if trailing then body ++ ['/'] else body
      if isAbs then ⟨'/' :: body2⟩ else ⟨body2⟩

/-- Node path.join of two parts: empty parts are skipped, the rest joined
with a separator and normalized; "." when nothing remains. -/
def pathJoin2 (a b : String) : String :=
  if a = "" ∧ b = "" then "."
  else if a = "" then posixNormalize b
  else if b = "" then posixNormalize a
  else posixNormalize ⟨a.data ++ '/' :: b.data⟩

/-! ### The path sanitizer (src/core/filesystem/organizer.js) -/

/-- The characters replaced by the sanitizer: the class of characters
illegal on common filesystems, including the backslash. -/
def invalidPathChar (c : Char) : Bool :=
  c = '<' ∨ c = '>' ∨ c = ':' ∨ c = '"' ∨ c = '|' ∨ c = '?' ∨ c = '*' ∨
    c = '\\'

/-- FileOrganizer._sanitizeFilePath: replace illegal characters by
underscores, collapse whitespace runs to single spaces, and when the result
exceeds 240 characters truncate the final segment's base name (clamped at
zero) and rejoin it with the directory part and the extension. -/
def sanitizeFilePath (filePath : String) : String :=
  let s1 := filePath.data.map (fun c => if invalidPathChar c then '_' else c)
  let s2 := collapseWs s1
  if 240 < s2.length then
    let ext := pathExtname ⟨s2⟩
    let dirName := pathDirname ⟨s2⟩
    let baseName := pathBasenameExt ⟨s2⟩ ext
    let maxBaseNameLength : ℤ :=
      240 - (dirName.length : ℤ) - (ext.length : ℤ) - 1
    let truncated := baseName.data.take maxBaseNameLength.toNat
    pathJoin2 dirName ⟨truncated ++ ext.data⟩
  else ⟨s2⟩

/-! ### Character provenance lemmas for the sanitizer -/

theorem mem_collapseWsAux {c : Char} :
    ∀ (b : Bool) (l : List Char), c ∈ collapseWsAux b l → c = ' ' ∨ c ∈ l := by
  intro b l
  induction l generalizing b with
  | nil => intro h; simp [collapseWsAux] at h
  | cons x rest ih =>
    intro h
    unfold collapseWsAux at h
    split at h
    · split at h
      · rcases ih _ h with h1 | h1
        · exact Or.inl h1
        · exact Or.inr (by simp [h1])
      · rcases List.mem_cons.mp h with rfl | h1
        · exact Or.inl rfl
        · rcases ih _ h1 with h2 | h2
          · exact Or.inl h2
          · exact Or.inr (by simp [h2])
    · rcases List.mem_cons.mp h with rfl | h1
      · exact Or.inr (by simp)
      · rcases ih _ h1 with h2 | h2
        · exact Or.inl h2
        · exact Or.inr (by simp [h2])

theorem ws_collapseWsAux {c : Char} :
    ∀ (b : Bool) (l : List Char), c ∈ collapseWsAux b l → jsWs c = true →
      c = ' ' := by
  intro b l
  induction l generalizing b with
  | nil => intro h; simp [collapseWsAux] at h
  | cons x rest ih =>
    intro h hws
    unfold collapseWsAux at h
    split at h
    · split at h
      · exact ih _ h hws
      · rcases List.mem_cons.mp h with rfl | h1
        · rfl
        · exact ih _ h1 hws
    · rcases List.mem_cons.mp h with rfl | h1
      · exact absurd hws (by simp_all)
      · exact ih _ h1 hws

theorem splitSlash_ne_nil (l : List Char) : splitSlash l ≠ [] := by
  induction l with
  | nil => simp [splitSlash]
  | cons c rest ih =>
    unfold splitSlash
    obtain ⟨a, b, h⟩ := List.exists_cons_of_ne_nil ih
    rw [h]
    dsimp only
    split <;> simp

theorem mem_splitSlash {c : Char} :
    ∀ (l : List Char) (s : List Char), s ∈ splitSlash l → c ∈ s → c ∈ l := by
  intro l
  induction l with
  | nil =>
    intro s hs hc
    simp [splitSlash] at hs
    subst hs
    simp at hc
  | cons x rest ih =>
    intro s hs hc
    obtain ⟨h, t, hsplit⟩ := List.exists_cons_of_ne_nil (splitSlash_ne_nil rest)
    unfold splitSlash at hs
    rw [hsplit] at hs
    dsimp only at hs
    by_cases hx : x = '/'
    · rw [if_pos hx] at hs
      rcases List.mem_cons.mp hs with rfl | hmem
      · simp at hc
      · exact List.mem_cons_of_mem x
          (ih s (by rw [hsplit]; exact hmem) hc)
    · rw [if_neg hx] at hs
      rcases List.mem_cons.mp hs with rfl | hmem
      · rcases List.mem_cons.mp hc with rfl | hc2
        · simp
        · exact List.mem_cons_of_mem x
            (ih h (by rw [hsplit]; exact List.mem_cons_self h t) hc2)
      · exact List.mem_cons_of_mem x
          (ih s (by rw [hsplit]; exact List.mem_cons_of_mem h hmem) hc)

theorem mem_normStep {x : List Char} (allow : Bool) (st : List (List Char))
    (s : List Char) (h : x ∈ normStep allow st s) : x ∈ st ∨ x = s := by
  unfold normStep at h
  by_cases h1 : s = [] ∨ s = ['.']
  · rw [if_pos h1] at h
    exact Or.inl h
  · rw [if_neg h1] at h
    by_cases h2 : s = ['.', '.']
    · rw [if_pos h2] at h
      rcases st with _ | ⟨t, rest⟩
      · dsimp only at h
        by_cases h3 : allow = true
        · rw [if_pos h3] at h
          exact Or.inr (by simpa using h)
        · rw [if_neg h3] at h
          simp at h
      · dsimp only at h
        by_cases h4 : t ≠ ['.', '.']
        · rw [if_pos h4] at h
          exact Or.inl (List.mem_cons_of_mem t h)
        · rw [if_neg h4] at h
          by_cases h3 : allow = true
          · rw [if_pos h3] at h
            rcases List.mem_cons.mp h with rfl | h5
            · exact Or.inr rfl
            · exact Or.inl h5
          · rw [if_neg h3] at h
            exact Or.inl h
    · rw [if_neg h2] at h
      rcases List.mem_cons.mp h with rfl | h5
      · exact Or.inr rfl
      · exact Or.inl h5

theorem mem_normStack {x : List Char} (allow : Bool) :
    ∀ (segs : List (List Char)) (st : List (List Char)),
      x ∈ segs.foldl (normStep allow) st → x ∈ st ∨ x ∈ segs := by
  intro segs
  induction segs with
  | nil =>
    intro st h
    exact Or.inl h
  | cons s rest ih =>
    intro st h
    rcases ih (normStep allow st s) h with h1 | h1
    · rcases mem_normStep allow st s h1 with h2 | rfl
      · exact Or.inl h2
      · exact Or.inr (by simp)
    · exact Or.inr (by simp [h1])

theorem mem_joinSegs {c : Char} :
    ∀ (parts : List (List Char)), c ∈ joinSegs parts →
      c = '/' ∨ ∃ s ∈ parts, c ∈ s := by
  intro parts
  induction parts with
  | nil => intro h; simp [joinSegs] at h
  | cons s rest ih =>
    intro h
    rcases rest with _ | ⟨r, t⟩
    · exact Or.inr ⟨s, by simp, by simpa [joinSegs] using h⟩
    · unfold joinSegs at h
      rcases List.mem_append.mp h with h1 | h1
      · exact Or.inr ⟨s, by simp, h1⟩
      · rcases List.mem_cons.mp h1 with rfl | h2
        · exact Or.inl rfl
        · rcases ih h2 with h3 | ⟨u, hu, hc⟩
          · exact Or.inl h3
          · exact Or.inr ⟨u, by simp [hu], hc⟩

theorem mem_posixNormalize {c : Char} (p : String)
    (h : c ∈ (posixNormalize p).data) : c ∈ p.data ∨ c = '/' ∨ c = '.' := by
  unfold posixNormalize at h
  by_cases hp : p = ""
  · rw [if_pos hp] at h
    simp at h
    exact Or.inr (Or.inr h)
  · rw [if_neg hp] at h
    dsimp only at h
    have hbody : ∀ d : Char,
        d ∈ joinSegs (normStack (!(p.data.head? = some '/' : Bool))
          (splitSlash p.data)).reverse → d ∈ p.data ∨ d = '/' := by
      intro d hd
      rcases mem_joinSegs _ hd with rfl | ⟨s, hs, hds⟩
      · exact Or.inr rfl
      · rcases mem_normStack _ _ _ (List.mem_reverse.mp hs) with h2 | h2
        · simp at h2
        · exact Or.inl (mem_splitSlash p.data s h2 hds)
    split at h
    · split at h
      · simp at h
        exact Or.inr (Or.inl h)
      · split at h
        · simp at h
          rcases h with h | h
          · exact Or.inr (Or.inr h)
          · exact Or.inr (Or.inl h)
        · simp at h
          exact Or.inr (Or.inr h)
    · split at h <;> split at h <;> dsimp only at h
      · rcases List.mem_cons.mp h with rfl | h2
        · exact Or.inr (Or.inl rfl)
        · rcases List.mem_append.mp h2 with h3 | h3
          · rcases hbody c h3 with h4 | h4
            · exact Or.inl h4
            · exact Or.inr (Or.inl h4)
          · simp at h3
            exact Or.inr (Or.inl h3)
      · rcases List.mem_cons.mp h with rfl | h2
        · exact Or.inr (Or.inl rfl)
        · rcases hbody c h2 with h4 | h4
          · exact Or.inl h4
          · exact Or.inr (Or.inl h4)
      · rcases List.mem_append.mp h with h3 | h3
        · rcases hbody c h3 with h4 | h4
          · exact Or.inl h4
          · exact Or.inr (Or.inl h4)
        · simp at h3
          exact Or.inr (Or.inl h3)
      · rcases hbody c h with h4 | h4
        · exact Or.inl h4
        · exact Or.inr (Or.inl h4)

theorem mem_pathJoin2 {c : Char} (a b : String)
    (h : c ∈ (pathJoin2 a b).data) :
    c ∈ a.data ∨ c ∈ b.data ∨ c = '/' ∨ c = '.' := by
  unfold pathJoin2 at h
  split at h
  · simp at h
    exact Or.inr (Or.inr (Or.inr h))
  · split at h
    · rcases mem_posixNormalize b h with h1 | h1
      · exact Or.inr (Or.inl h1)
      · exact Or.inr (Or.inr h1)
    · split at h
      · rcases mem_posixNormalize a h with h1 | h1
        · exact Or.inl h1
        · exact Or.inr (Or.inr h1)
      · rcases mem_posixNormalize _ h with h1 | h1
        · simp only [String.data] at h1
          rcases List.mem_append.mp h1 with h2 | h2
          · exact Or.inl h2
          · rcases List.mem_cons.mp h2 with rfl | h3
            · exact Or.inr (Or.inr (Or.inl rfl))
            · exact Or.inr (Or.inl h3)
        · exact Or.inr (Or.inr h1)

theorem mem_dropTrailingSlashes {c : Char} (l : List Char)
    (h : c ∈ dropTrailingSlashes l) : c ∈ l := by
  unfold dropTrailingSlashes at h
  rw [List.mem_reverse] at h
  exact List.mem_reverse.mp ((List.dropWhile_sublist _).mem h)

theorem mem_lastSegment {c : Char} (l : List Char)
    (h : c ∈ lastSegment l) : c ∈ l := by
  unfold lastSegment at h
  rw [List.mem_reverse] at h
  exact mem_dropTrailingSlashes l
    (List.mem_reverse.mp ((List.takeWhile_sublist _).mem h))

theorem mem_pathDirname {c : Char} (p : String)
    (h : c ∈ (pathDirname p).data) : c ∈ p.data ∨ c = '/' ∨ c = '.' := by
  unfold pathDirname at h
  split at h
  · simp at h
    exact Or.inr (Or.inr h)
  · dsimp only at h
    split at h
    · split at h
      · simp at h
        exact Or.inr (Or.inl h)
      · simp at h
        exact Or.inr (Or.inr h)
    · simp at h
      exact Or.inr (Or.inl h)
    · split at h
      · simp at h
        rcases h with rfl | rfl <;> exact Or.inr (Or.inl rfl)
      · exact Or.inl (mem_dropTrailingSlashes _ ((List.take_sublist _ _).mem h))
    · exact Or.inl (mem_dropTrailingSlashes _ ((List.take_sublist _ _).mem h))

theorem mem_pathBasenameExt {c : Char} (p ext : String)
    (h : c ∈ (pathBasenameExt p ext).data) : c ∈ p.data := by
  simp only [pathBasenameExt] at h
  split at h
  · exact mem_lastSegment p.data ((List.take_sublist _ _).mem h)
  · exact mem_lastSegment p.data h

theorem mem_pathExtname {c : Char} (p : String)
    (h : c ∈ (pathExtname p).data) : c ∈ p.data := by
  simp only [pathExtname] at h
  split at h
  · simp at h
  · split at h
    · simp at h
    · exact mem_lastSegment p.data ((List.drop_sublist _ _).mem h)

/-- Every character of the sanitized path that came from the input passed
through the underscore replacement, and the path machinery only adds
separators, dots and spaces: no illegal character survives. -/
theorem sanitize_no_invalid (p : String) :
    ∀ c ∈ (sanitizeFilePath p).data, invalidPathChar c = false := by
  intro c hc
  have hs1 : ∀ d : Char,
      d ∈ p.data.map (fun c => if invalidPathChar c then '_' else c) →
        invalidPathChar d = false := by
    intro d hd
    rcases List.mem_map.mp hd with ⟨e, _, rfl⟩
    by_cases he : invalidPathChar e = true
    · simp [he]
      decide
    · simp at he
      simp [he]
  have hs2 : ∀ d : Char,
      d ∈ collapseWs (p.data.map (fun c => if invalidPathChar c then '_' else c)) →
        invalidPathChar d = false := by
    intro d hd
    rcases mem_collapseWsAux _ _ hd with rfl | hd2
    · decide
    · exact hs1 d hd2
  simp only [sanitizeFilePath] at hc
  split at hc
  · rcases mem_pathJoin2 _ _ hc with h1 | h1 | h1 | h1
    · rcases mem_pathDirname _ h1 with h2 | h2 | h2
      · exact hs2 c h2
      · subst h2
        decide
      · subst h2
        decide
    · rcases List.mem_append.mp h1 with h2 | h2
      · exact hs2 c (mem_pathBasenameExt _ _ ((List.take_sublist _ _).mem h2))
      · exact hs2 c (mem_pathExtname _ h2)
    · subst h1
      decide
    · subst h1
      decide
  · exact hs2 c hc

/-! ### Whitespace-collapse preservation through the path machinery -/

/-- Two adjacent characters are never both whitespace. -/
def noWsPair (a b : Char) : Prop := ¬(jsWs a = true ∧ jsWs b = true)

instance : DecidableRel noWsPair := fun a b => instDecidableNot

theorem collapseWsAux_headTrue (l : List Char) :
    ∀ c, (collapseWsAux true l).head? = some c → jsWs c = false := by
  induction l with
  | nil => intro c hc; simp [collapseWsAux] at hc
  | cons x rest ih =>
    intro c hc
    unfold collapseWsAux at hc
    by_cases hx : jsWs x = true
    · rw [if_pos hx] at hc
      exact ih c hc
    · rw [if_neg hx] at hc
      simp at hc
      subst hc
      simpa using hx

theorem collapseWsAux_chain (l : List Char) :
    ∀ b, List.Chain' noWsPair (collapseWsAux b l) := by
  induction l with
  | nil => intro b; simp [collapseWsAux]
  | cons x rest ih =>
    intro b
    unfold collapseWsAux
    by_cases hx : jsWs x = true
    · rw [if_pos hx]
      split
      · exact ih true
      · refine List.chain'_cons'.mpr ⟨?_, ih true⟩
        intro y hy
        intro hpair
        rw [collapseWsAux_headTrue rest y hy] at hpair
        exact Bool.false_ne_true hpair.2
    · rw [if_neg hx]
      refine List.chain'_cons'.mpr ⟨?_, ih false⟩
      intro y _
      intro hpair
      exact hx hpair.1

theorem chain_append_left {P : Char → Char → Prop} {l₁ l₂ : List Char}
    (h : List.Chain' P (l₁ ++ l₂)) : List.Chain' P l₁ :=
  (List.chain'_append.mp h).1

theorem chain_append_right {P : Char → Char → Prop} {l₁ l₂ : List Char}
    (h : List.Chain' P (l₁ ++ l₂)) : List.Chain' P l₂ :=
  (List.chain'_append.mp h).2.1

theorem chain_take {P : Char → Char → Prop} {l : List Char} (n : ℕ)
    (h : List.Chain' P l) : List.Chain' P (l.take n) :=
  @chain_append_left P (l.take n) (l.drop n)
    (by rwa [List.take_append_drop])

theorem chain_drop {P : Char → Char → Prop} {l : List Char} (n : ℕ)
    (h : List.Chain' P l) : List.Chain' P (l.drop n) :=
  @chain_append_right P (l.take n) (l.drop n)
    (by rwa [List.take_append_drop])

theorem dts_append (l : List Char) :
    dropTrailingSlashes l ++ (l.reverse.takeWhile (fun c => c = '/')).reverse
      = l := by
  unfold dropTrailingSlashes
  rw [← List.reverse_append, List.takeWhile_append_dropWhile,
    List.reverse_reverse]

theorem lastSegment_append (l : List Char) :
    ((dropTrailingSlashes l).reverse.dropWhile (fun c => c ≠ '/')).reverse ++
      lastSegment l = dropTrailingSlashes l := by
  unfold lastSegment
  rw [← List.reverse_append, List.takeWhile_append_dropWhile,
    List.reverse_reverse]

theorem chain_dts {P : Char → Char → Prop} {l : List Char}
    (h : List.Chain' P l) : List.Chain' P (dropTrailingSlashes l) := by
  have h2 : List.Chain' P (dropTrailingSlashes l ++
      (l.reverse.takeWhile (fun c => c = '/')).reverse) := by
    rw [dts_append l]
    exact h
  exact chain_append_left h2

theorem chain_lastSegment {P : Char → Char → Prop} {l : List Char}
    (h : List.Chain' P l) : List.Chain' P (lastSegment l) :=
  chain_append_right (by rw [lastSegment_append l]; exact chain_dts h)

theorem splitSlash_cons_slash (rest : List Char) :
    splitSlash ('/' :: rest) = [] :: splitSlash rest := by
  obtain ⟨a, b, h⟩ := List.exists_cons_of_ne_nil (splitSlash_ne_nil rest)
  rw [h]
  show splitSlash ('/' :: rest) = [] :: a :: b
  unfold splitSlash
  rw [h]
  simp

theorem splitSlash_cons_ne (d : Char) (rest : List Char) (hd : d ≠ '/') :
    ∃ h2 t2, splitSlash (d :: rest) = (d :: h2) :: t2 ∧
      splitSlash rest = h2 :: t2 := by
  obtain ⟨a, b, h⟩ := List.exists_cons_of_ne_nil (splitSlash_ne_nil rest)
  refine ⟨a, b, ?_, h⟩
  unfold splitSlash
  rw [h]
  simp [hd]

theorem chain_splitSlash {P : Char → Char → Prop} :
    ∀ (l : List Char), List.Chain' P l → ∀ s ∈ splitSlash l,
      List.Chain' P s := by
  intro l
  induction l with
  | nil =>
    intro _ s hs
    simp [splitSlash] at hs
    simp [hs]
  | cons x rest ih =>
    intro hch s hs
    have hrest : List.Chain' P rest := hch.tail
    by_cases hx : x = '/'
    · subst hx
      rw [splitSlash_cons_slash] at hs
      rcases List.mem_cons.mp hs with rfl | hmem
      · simp
      · exact ih hrest s hmem
    · obtain ⟨h2, t2, heq, hr⟩ := splitSlash_cons_ne x rest hx
      rw [heq] at hs
      rcases List.mem_cons.mp hs with rfl | hmem
      · refine List.chain'_cons'.mpr ⟨?_, ih hrest h2 (by rw [hr]; simp)⟩
        intro y hy
        rcases rest with _ | ⟨d, rest2⟩
        · simp [splitSlash] at hr
          rw [hr.1] at hy
          simp at hy
        · by_cases hd : d = '/'
          · subst hd
            rw [splitSlash_cons_slash] at hr
            have hnil : h2 = [] := by
              injection hr with he ht
              exact he.symm
            rw [hnil] at hy
            simp at hy
          · obtain ⟨h3, t3, heq3, _⟩ := splitSlash_cons_ne d rest2 hd
            rw [heq3] at hr
            have hh2 : h2 = d :: h3 := by
              injection hr with he ht
              exact he.symm
            rw [hh2] at hy
            simp at hy
            subst hy
            exact (List.chain'_cons.mp hch).1
      · exact ih hrest s (by rw [hr]; simp [hmem])

theorem chain_joinSegs {P : Char → Char → Prop}
    (hsep1 : ∀ a, P a '/') (hsep2 : ∀ a, P '/' a) :
    ∀ (parts : List (List Char)), (∀ s ∈ parts, List.Chain' P s) →
      List.Chain' P (joinSegs parts) := by
  intro parts
  induction parts with
  | nil => intro _; simp [joinSegs]
  | cons s rest ih =>
    intro hall
    rcases rest with _ | ⟨r, t⟩
    · simpa [joinSegs] using hall s (by simp)
    · unfold joinSegs
      refine List.chain'_append.mpr ⟨hall s (by simp), ?_, ?_⟩
      · refine List.chain'_cons'.mpr ⟨fun y _ => hsep2 y, ?_⟩
        exact ih fun u hu => hall u (by simp [hu])
      · intro x _ y hy
        simp at hy
        rw [← hy]
        exact hsep1 x

theorem noWsPair_slash_left (a : Char) : noWsPair a '/' := by
  intro hpair
  have : jsWs '/' = true := hpair.2
  simp [jsWs] at this

theorem noWsPair_slash_right (a : Char) : noWsPair '/' a := by
  intro hpair
  have : jsWs '/' = true := hpair.1
  simp [jsWs] at this

theorem noWsPair_dot_left (a : Char) : noWsPair a '.' := by
  intro hpair
  have : jsWs '.' = true := hpair.2
  simp [jsWs] at this

theorem noWsPair_dot_right (a : Char) : noWsPair '.' a := by
  intro hpair
  have : jsWs '.' = true := hpair.1
  simp [jsWs] at this

theorem wsChain_posixNormalize (p : String)
    (h : List.Chain' noWsPair p.data) :
    List.Chain' noWsPair (posixNormalize p).data := by
  unfold posixNormalize
  split
  · simp
  · dsimp only
    have hstack : ∀ s ∈ (normStack (!(p.data.head? = some '/' : Bool))
        (splitSlash p.data)).reverse, List.Chain' noWsPair s := by
      intro s hs
      rcases mem_normStack _ _ _ (List.mem_reverse.mp hs) with h2 | h2
      · simp at h2
      · exact chain_splitSlash p.data h s h2
    have hbody : List.Chain' noWsPair
        (joinSegs (normStack (!(p.data.head? = some '/' : Bool))
          (splitSlash p.data)).reverse) :=
      chain_joinSegs noWsPair_slash_left noWsPair_slash_right _ hstack
    split
    · split
      · simp
      · split
        · simp
          exact noWsPair_dot_left '/'
        · simp
    · split
      · split
        · refine List.chain'_cons'.mpr ⟨fun y _ => noWsPair_slash_right y, ?_⟩
          refine List.chain'_append.mpr ⟨hbody, by simp, ?_⟩
          intro x _ y hy
          simp at hy
          rw [← hy]
          exact noWsPair_slash_left x
        · exact List.chain'_cons'.mpr
            ⟨fun y _ => noWsPair_slash_right y, hbody⟩
      · split
        · refine List.chain'_append.mpr ⟨hbody, by simp, ?_⟩
          intro x _ y hy
          simp at hy
          rw [← hy]
          exact noWsPair_slash_left x
        · exact hbody

theorem wsChain_pathJoin2 (a b : String)
    (ha : List.Chain' noWsPair a.data) (hb : List.Chain' noWsPair b.data) :
    List.Chain' noWsPair (pathJoin2 a b).data := by
  unfold pathJoin2
  split
  · simp
  · split
    · exact wsChain_posixNormalize b hb
    · split
      · exact wsChain_posixNormalize a ha
      · apply wsChain_posixNormalize
        show List.Chain' noWsPair (a.data ++ '/' :: b.data)
        refine List.chain'_append.mpr ⟨ha, ?_, ?_⟩
        · exact List.chain'_cons'.mpr ⟨fun y _ => noWsPair_slash_right y, hb⟩
        · intro x _ y hy
          simp at hy
          rw [← hy]
          exact noWsPair_slash_left x

theorem wsChain_pathDirname (p : String)
    (h : List.Chain' noWsPair p.data) :
    List.Chain' noWsPair (pathDirname p).data := by
  unfold pathDirname
  split
  · simp
  · dsimp only
    split
    · split <;> simp
    · simp
    · split
      · simp
        exact noWsPair_slash_left '/'
      · exact chain_take 1 (chain_dts h)
    · exact chain_take _ (chain_dts h)

theorem wsChain_pathBasenameExt (p ext : String)
    (h : List.Chain' noWsPair p.data) :
    List.Chain' noWsPair (pathBasenameExt p ext).data := by
  simp only [pathBasenameExt]
  split
  · exact chain_take _ (chain_lastSegment h)
  · exact chain_lastSegment h

theorem wsChain_pathExtname (p : String)
    (h : List.Chain' noWsPair p.data) :
    List.Chain' noWsPair (pathExtname p).data := by
  simp only [pathExtname]
  split
  · simp
  · split
    · simp
    · exact chain_drop _ (chain_lastSegment h)

theorem dropWhile_head_not {p : Char → Bool} :
    ∀ (l : List Char) (a : Char) (t : List Char),
      l.dropWhile p = a :: t → p a = false := by
  intro l
  induction l with
  | nil => intro a t h; simp at h
  | cons x rest ih =>
    intro a t h
    rw [List.dropWhile_cons] at h
    split at h
    · exact ih a t h
    · rename_i hx
      injection h with h1 _
      subst h1
      simpa using hx

/-- A non-empty extension starts with the dot. -/
theorem pathExtname_head (p : String) :
    (pathExtname p).data = [] ∨
      ∃ t, (pathExtname p).data = '.' :: t := by
  simp only [pathExtname]
  split
  · exact Or.inl rfl
  · split
    · exact Or.inl rfl
    · rename_i hne hj
      right
      set b := lastSegment p.data with hbdef
      set Y := b.reverse.takeWhile (fun c => c ≠ '.') with hY
      set X := b.reverse.dropWhile (fun c => c ≠ '.') with hX
      have hsplit : Y ++ X = b.reverse := by
        rw [hY, hX]
        exact List.takeWhile_append_dropWhile _ _
      have hXne : X ≠ [] := by
        intro hXnil
        apply hne
        have h2 : Y = b.reverse := by
          rw [← hsplit, hXnil, List.append_nil]
        rw [h2, List.length_reverse]
      obtain ⟨a, t0, hXeq⟩ := List.exists_cons_of_ne_nil hXne
      have ha0 : List.dropWhile (fun c => decide (c ≠ '.')) b.reverse
          = a :: t0 := by
        rw [← hX]
        exact hXeq
      have ha : a = '.' := by
        have ha1 := dropWhile_head_not b.reverse a t0 ha0
        simpa using ha1
      have hb : b = t0.reverse ++ '.' :: Y.reverse := by
        have h1 : b = X.reverse ++ Y.reverse := by
          rw [← List.reverse_append, hsplit, List.reverse_reverse]
        rw [hXeq, ha] at h1
        rw [h1]
        simp
      have hlen : b.length = t0.length + 1 + Y.length := by
        rw [hb]
        simp
        omega
      have hj2 : b.length - Y.length - 1 = t0.length := by
        omega
      refine ⟨Y.reverse, ?_⟩
      show List.drop (b.length - Y.length - 1) b = '.' :: Y.reverse
      rw [hj2, hb, ← List.length_reverse t0]
      exact List.drop_left _ _

/-- The sanitized path never contains two adjacent whitespace characters,
and all its whitespace characters are plain spaces. -/
theorem sanitize_ws_collapsed (p : String) :
    (∀ c ∈ (sanitizeFilePath p).data, jsWs c = true → c = ' ') ∧
    List.Chain' noWsPair (sanitizeFilePath p).data := by
  set s1 := p.data.map (fun c => if invalidPathChar c then '_' else c) with hs1
  have hchain2 : List.Chain' noWsPair (collapseWs s1) := collapseWsAux_chain s1 false
  have hws2 : ∀ c ∈ collapseWs s1, jsWs c = true → c = ' ' :=
    fun c hc hw => ws_collapseWsAux false s1 hc hw
  constructor
  · intro c hc hw
    simp only [sanitizeFilePath] at hc
    split at hc
    · rcases mem_pathJoin2 _ _ hc with h1 | h1 | h1 | h1
      · rcases mem_pathDirname _ h1 with h2 | h2 | h2
        · exact hws2 c h2 hw
        · subst h2
          simp [jsWs] at hw
        · subst h2
          simp [jsWs] at hw
      · rcases List.mem_append.mp h1 with h2 | h2
        · exact hws2 c
            (mem_pathBasenameExt _ _ ((List.take_sublist _ _).mem h2)) hw
        · exact hws2 c (mem_pathExtname _ h2) hw
      · subst h1
        simp [jsWs] at hw
      · subst h1
        simp [jsWs] at hw
    · exact hws2 c hc hw
  · simp only [sanitizeFilePath]
    split
    · apply wsChain_pathJoin2
      · exact wsChain_pathDirname _ hchain2
      · show List.Chain' noWsPair
          ((pathBasenameExt ⟨collapseWs s1⟩ (pathExtname ⟨collapseWs s1⟩)).data.take
            _ ++ (pathExtname ⟨collapseWs s1⟩).data)
        refine List.chain'_append.mpr ⟨?_, ?_, ?_⟩
        · exact chain_take _ (wsChain_pathBasenameExt _ _ hchain2)
        · exact wsChain_pathExtname _ hchain2
        · intro x _ y hy
          rcases pathExtname_head ⟨collapseWs s1⟩ with hnil | ⟨t, hx⟩
          · rw [hnil] at hy
            simp at hy
          · rw [hx] at hy
            simp at hy
            rw [← hy]
            exact noWsPair_dot_left x
    · exact hchain2

/-! ### Length accounting for normalize and join -/

/-- The weight of a segment list: each segment costs its length plus one
separator; a path of n segments weighs its length plus one. -/
def segsW (parts : List (List Char)) : ℕ :=
  parts.foldr (fun s n => s.length + 1 + n) 0

theorem segsW_append (a b : List (List Char)) :
    segsW (a ++ b) = segsW a + segsW b := by
  induction a with
  | nil => simp [segsW]
  | cons s t ih =>
    simp only [segsW, List.foldr_cons, List.cons_append] at ih ⊢
    omega

theorem segsW_reverse (l : List (List Char)) : segsW l.reverse = segsW l := by
  induction l with
  | nil => rfl
  | cons s t ih =>
    simp only [List.reverse_cons, segsW_append, ih]
    simp [segsW]
    omega

theorem segsW_splitSlash (l : List Char) :
    segsW (splitSlash l) = l.length + 1 := by
  induction l with
  | nil => simp [splitSlash, segsW]
  | cons x rest ih =>
    by_cases hx : x = '/'
    · subst hx
      rw [splitSlash_cons_slash]
      simp only [segsW, List.foldr_cons] at ih ⊢
      simp
      omega
    · obtain ⟨h2, t2, heq, hr⟩ := splitSlash_cons_ne x rest hx
      rw [heq]
      rw [hr] at ih
      simp only [segsW, List.foldr_cons] at ih ⊢
      simp
      omega

theorem normStep_nil_seg (allow : Bool) (st : List (List Char)) :
    normStep allow st [] = st := by
  simp [normStep]

theorem segsW_normStep (allow : Bool) (st : List (List Char))
    (s : List Char) : segsW (normStep allow st s) ≤ segsW st + s.length + 1 := by
  unfold normStep
  by_cases h1 : s = [] ∨ s = ['.']
  · rw [if_pos h1]
    omega
  · rw [if_neg h1]
    by_cases h2 : s = ['.', '.']
    · rw [if_pos h2]
      rcases st with _ | ⟨t, rest⟩
      · dsimp only
        split
        · simp [segsW]
        · simp [segsW]
      · dsimp only
        by_cases h4 : t ≠ ['.', '.']
        · rw [if_pos h4]
          simp only [segsW, List.foldr_cons]
          omega
        · rw [if_neg h4]
          split
          · simp only [segsW, List.foldr_cons]
            rw [h2]
            simp
            omega
          · simp only [segsW, List.foldr_cons]
            omega
    · rw [if_neg h2]
      simp only [segsW, List.foldr_cons]
      omega

theorem segsW_foldl_normStep (allow : Bool) :
    ∀ (segs : List (List Char)) (st : List (List Char)),
      segsW (segs.foldl (normStep allow) st) ≤ segsW st + segsW segs := by
  intro segs
  induction segs with
  | nil =>
    intro st
    simp [segsW]
  | cons s rest ih =>
    intro st
    have h1 := ih (normStep allow st s)
    have h2 := segsW_normStep allow st s
    simp only [List.foldl_cons]
    simp only [segsW, List.foldr_cons] at *
    omega

theorem joinSegs_length :
    ∀ (parts : List (List Char)), parts ≠ [] →
      (joinSegs parts).length + 1 = segsW parts := by
  intro parts
  induction parts with
  | nil => intro h; exact absurd rfl h
  | cons s rest ih =>
    intro _
    rcases rest with _ | ⟨r, t⟩
    · simp [joinSegs, segsW]
    · have := ih (by simp)
      unfold joinSegs
      simp only [segsW, List.foldr_cons] at this ⊢
      simp only [List.length_append, List.length_cons]
      omega

theorem splitSlash_singleton_nil (l : List Char)
    (h : splitSlash l = [[]]) : l = [] := by
  rcases l with _ | ⟨c, rest⟩
  · rfl
  · exfalso
    by_cases hc : c = '/'
    · subst hc
      rw [splitSlash_cons_slash] at h
      have := splitSlash_ne_nil rest
      injection h with h1 h2
      exact this h2
    · obtain ⟨h2, t2, heq, _⟩ := splitSlash_cons_ne c rest hc
      rw [heq] at h
      injection h with h1 _
      simp at h1

theorem splitSlash_trailing (l : List Char) (h : l.getLast? = some '/') :
    ∃ init, splitSlash l = init ++ [[]] := by
  induction l with
  | nil => simp at h
  | cons c rest ih =>
    rcases rest with _ | ⟨d, rest2⟩
    · simp at h
      subst h
      rw [splitSlash_cons_slash]
      exact ⟨[[]], rfl⟩
    · have hlast : (d :: rest2).getLast? = some '/' := by
        rwa [List.getLast?_cons_cons] at h
      obtain ⟨init, hinit⟩ := ih hlast
      by_cases hc : c = '/'
      · subst hc
        rw [splitSlash_cons_slash, hinit]
        exact ⟨[] :: init, rfl⟩
      · obtain ⟨h2, t2, heq, hr⟩ := splitSlash_cons_ne c (d :: rest2) hc
        rw [hr] at hinit
        rcases init with _ | ⟨i0, irest⟩
        · simp at hinit
          exfalso
          have : (d :: rest2) = [] :=
            splitSlash_singleton_nil _ (by rw [hr, hinit.1, hinit.2])
          simp at this
        · rw [heq]
          simp only [List.cons_append, List.cons.injEq] at hinit
          obtain ⟨he1, he2⟩ := hinit
          subst he1
          rw [he2]
          exact ⟨(c :: h2) :: irest, rfl⟩

theorem segsW_normStack_le (allow : Bool) (segs : List (List Char)) :
    segsW (normStack allow segs) ≤ segsW segs := by
  have := segsW_foldl_normStep allow segs []
  simpa [normStack, segsW] using this

/-- Normalization never lengthens a non-empty path. -/
theorem posixNormalize_length (p : String) (hp : p ≠ "") :
    (posixNormalize p).data.length ≤ p.data.length := by
  obtain ⟨d⟩ := p
  have hd : d ≠ [] := by
    intro h
    apply hp
    subst h
    rfl
  unfold posixNormalize
  rw [if_neg hp]
  dsimp only
  set A := !(decide ((String.mk d).data.head? = some '/')) with hA
  have hW : segsW (splitSlash d) = d.length + 1 := segsW_splitSlash d
  have hgen : segsW (normStack A (splitSlash d)) ≤ d.length + 1 := by
    rw [← hW]
    exact segsW_normStack_le A (splitSlash d)
  have habs_bound : (String.mk d).data.head? = some '/' →
      segsW (normStack A (splitSlash d)) ≤ d.length := by
    intro habs
    rcases d with _ | ⟨c, rest⟩
    · simp at habs
    · have hc : c = '/' := by
        simpa using habs
      subst hc
      rw [splitSlash_cons_slash]
      show segsW (List.foldl (normStep A) [] ([] :: splitSlash rest)) ≤ _
      rw [List.foldl_cons, normStep_nil_seg]
      have := segsW_normStack_le A (splitSlash rest)
      rw [segsW_splitSlash rest] at this
      simpa [normStack] using this
  have htr_bound : (String.mk d).data.getLast? = some '/' →
      segsW (normStack A (splitSlash d)) ≤ d.length := by
    intro htr
    obtain ⟨init, hinit⟩ := splitSlash_trailing d htr
    have hsegsW : segsW (splitSlash d) = segsW init + 1 := by
      rw [hinit, segsW_append]
      simp [segsW]
    show segsW (List.foldl (normStep A) [] (splitSlash d)) ≤ _
    rw [hinit, List.foldl_append]
    simp only [List.foldl_cons, List.foldl_nil, normStep_nil_seg]
    have h1 := segsW_foldl_normStep A init []
    simp only [segsW, List.foldr_nil] at h1
    have h2 : segsW init = d.length := by
      have := hW
      omega
    simp only [segsW] at h2 ⊢
    omega
  have hboth_bound : (String.mk d).data.head? = some '/' →
      (String.mk d).data.getLast? = some '/' →
      (joinSegs (normStack A (splitSlash d)).reverse ≠ []) →
      segsW (normStack A (splitSlash d)) ≤ d.length - 1 ∧ 2 ≤ d.length := by
    intro habs htr hbody
    rcases d with _ | ⟨c, rest⟩
    · simp at habs
    · have hc : c = '/' := by
        simpa using habs
      subst hc
      rcases rest with _ | ⟨e, rest2⟩
      · exfalso
        apply hbody
        rw [splitSlash_cons_slash]
        show joinSegs (List.foldl (normStep A) [] ([] :: splitSlash [])).reverse
          = []
        rw [List.foldl_cons, normStep_nil_seg]
        simp [splitSlash, normStep_nil_seg, joinSegs]
      · have htr2 : (e :: rest2).getLast? = some '/' := by
          rwa [List.getLast?_cons_cons] at htr
        obtain ⟨init, hinit⟩ := splitSlash_trailing (e :: rest2) htr2
        have hsegsW2 : segsW (splitSlash (e :: rest2)) = segsW init + 1 := by
          rw [hinit, segsW_append]
          simp [segsW]
        constructor
        · rw [splitSlash_cons_slash]
          show segsW (List.foldl (normStep A) []
            ([] :: splitSlash (e :: rest2))) ≤ _
          rw [List.foldl_cons, normStep_nil_seg, hinit, List.foldl_append]
          simp only [List.foldl_cons, List.foldl_nil, normStep_nil_seg]
          have h1 := segsW_foldl_normStep A init []
          simp only [segsW, List.foldr_nil] at h1
          have h3 := segsW_splitSlash (e :: rest2)
          have h2 : segsW init = (e :: rest2).length := by
            omega
          simp only [segsW] at h2 ⊢
          simp only [List.length_cons] at h2 ⊢
          omega
        · simp
  split
  · split
    · show ("/" : String).data.length ≤ _
      have : d.length ≠ 0 := fun h => hd (List.eq_nil_of_length_eq_zero h)
      simp
      omega
    · split
      · show ("./" : String).data.length ≤ _
        rename_i hnabs htr
        rcases d with _ | ⟨c, rest⟩
        · simp at htr
        · rcases rest with _ | ⟨e, rest2⟩
          · exfalso
            simp at htr
            subst htr
            simp at hnabs
          · have hL : ("./" : String).data.length = 2 := rfl
            rw [hL]
            simp only [List.length_cons]
            omega
      · show ("." : String).data.length ≤ _
        have : d.length ≠ 0 := fun h => hd (List.eq_nil_of_length_eq_zero h)
        simp
        omega
  · rename_i hbody
    have hrevne : (normStack A (splitSlash d)).reverse ≠ [] := by
      intro h
      exact hbody (by rw [h]; rfl)
    have hjoin := joinSegs_length (normStack A (splitSlash d)).reverse hrevne
    rw [segsW_reverse] at hjoin
    split
    · rename_i habs
      split
      · rename_i htr
        obtain ⟨hb1, hb2⟩ := hboth_bound habs htr hbody
        show ('/' :: (joinSegs (normStack A (splitSlash d)).reverse ++ ['/'])).length ≤ _
        simp only [List.length_cons, List.length_append, List.length_nil]
        omega
      · rename_i htr
        have hb := habs_bound habs
        show ('/' :: joinSegs (normStack A (splitSlash d)).reverse).length ≤ _
        simp only [List.length_cons]
        omega
    · rename_i habs
      split
      · rename_i htr
        have hb := htr_bound htr
        show (joinSegs (normStack A (splitSlash d)).reverse ++ ['/']).length ≤ _
        simp only [List.length_append, List.length_cons, List.length_nil]
        omega
      · show (joinSegs (normStack A (splitSlash d)).reverse).length ≤ _
        omega

theorem pathJoin2_length (a b : String) :
    (pathJoin2 a b).data.length ≤ a.data.length + b.data.length + 1 := by
  unfold pathJoin2
  split
  · have h1 : ("." : String).data.length = 1 := rfl
    rw [h1]
    omega
  · rename_i h1
    split
    · rename_i h2
      have hb : b ≠ "" := fun hb => h1 ⟨h2, hb⟩
      have := posixNormalize_length b hb
      omega
    · rename_i h2
      split
      · have := posixNormalize_length a h2
        omega
      · rename_i h3
        have hne : (String.mk (a.data ++ '/' :: b.data)) ≠ "" := by
          intro hx
          have : (String.mk (a.data ++ '/' :: b.data)).data = [] := by
            rw [hx]
          simp at this
        have := posixNormalize_length _ hne
        simp only [List.length_append, List.length_cons] at this
        omega

/-- The sanitized path fits in 240 characters whenever the directory part,
the separator and the extension of the collapsed path fit in 240. -/
theorem sanitize_length (p : String)
    (hfit : (pathDirname ⟨collapseWs (p.data.map
        (fun c => if invalidPathChar c then '_' else c))⟩).data.length +
      (pathExtname ⟨collapseWs (p.data.map
        (fun c => if invalidPathChar c then '_' else c))⟩).data.length + 1
        ≤ 240) :
    (sanitizeFilePath p).data.length ≤ 240 := by
  simp only [sanitizeFilePath]
  split
  · set s2 := collapseWs (p.data.map
      (fun c => if invalidPathChar c then '_' else c)) with hs2
    set ext := pathExtname ⟨s2⟩ with hext
    set dirName := pathDirname ⟨s2⟩ with hdir
    have hjoin := pathJoin2_length dirName
      ⟨(pathBasenameExt ⟨s2⟩ ext).data.take
        ((240 - (dirName.length : ℤ) - (ext.length : ℤ) - 1)).toNat ++
        ext.data⟩
    have htake : ((pathBasenameExt ⟨s2⟩ ext).data.take
        ((240 - (dirName.length : ℤ) - (ext.length : ℤ) - 1)).toNat).length ≤
        ((240 - (dirName.length : ℤ) - (ext.length : ℤ) - 1)).toNat := by
      simpa using List.length_take_le _ _
    have hlen1 : dirName.length = dirName.data.length := rfl
    have hlen2 : ext.length = ext.data.length := rfl
    have hcomb : ((pathBasenameExt ⟨s2⟩ ext).data.take
        ((240 - (dirName.length : ℤ) - (ext.length : ℤ) - 1)).toNat ++
        ext.data).length ≤
        ((240 - (dirName.length : ℤ) - (ext.length : ℤ) - 1)).toNat +
          ext.data.length := by
      simp only [List.length_append]
      omega
    have hmk : ∀ l : List Char, (String.mk l).data = l := fun _ => rfl
    simp only [hmk] at hjoin
    omega
  · have hmk : ∀ l : List Char, (String.mk l).data = l := fun _ => rfl
    simp only [hmk]
    omega

set_option maxRecDepth 10000 in
/-- C7 counterexample: a path whose directory part alone exceeds 240
characters (300 letters, then a slash and a short file name) is longer than
240 before truncation, yet the sanitized result still has 305 characters:
the truncation budget for the base name is negative, the base name is
clipped to nothing, and the over-long directory part is kept verbatim. -/
theorem claim_sanitize_length_counterexample :
    240 < (collapseWs ((List.replicate 300 'a' ++ '/' :: "b.mp3".data).map
        (fun c => if invalidPathChar c then '_' else c))).length ∧
    240 < (sanitizeFilePath
      ⟨List.replicate 300 'a' ++ '/' :: "b.mp3".data⟩).data.length := by
  constructor <;> decide

/-- C7 (amended): every sanitized path is free of the illegal characters
and the backslash; every run of whitespace is collapsed (no two adjacent
whitespace characters remain and all whitespace is the plain space); and
whenever the collapsed path's directory part, one separator and extension
together fit in 240 characters, the sanitized result has length at most
240 — without that proviso the bound fails, as the directory part is never
truncated. -/
theorem claim_sanitize_properties (p : String) :
    (∀ c ∈ (sanitizeFilePath p).data, invalidPathChar c = false) ∧
    (∀ c ∈ (sanitizeFilePath p).data, jsWs c = true → c = ' ') ∧
    List.Chain' noWsPair (sanitizeFilePath p).data ∧
    ((pathDirname ⟨collapseWs (p.data.map
        (fun c => if invalidPathChar c then '_' else c))⟩).data.length +
      (pathExtname ⟨collapseWs (p.data.map
        (fun c => if invalidPathChar c then '_' else c))⟩).data.length + 1
        ≤ 240 →
      (sanitizeFilePath p).data.length ≤ 240) :=
  ⟨sanitize_no_invalid p, (sanitize_ws_collapsed p).1,
    (sanitize_ws_collapsed p).2, fun hfit => sanitize_length p hfit⟩

/-- C7 amended witness: the properties evaluated on a concrete path with an
illegal colon and doubled spaces. -/
theorem claim_sanitize_properties_witness :
    invalidPathChar '_' = false ∧ (' ' : Char) = ' ' ∧
    (sanitizeFilePath "/dest/Book: A  B.mp3").data.length ≤ 240 :=
  ⟨(claim_sanitize_properties "/dest/Book: A  B.mp3").1 '_' (by decide),
    (claim_sanitize_properties "/dest/Book: A  B.mp3").2.1 ' ' (by decide)
      (by decide),
    (claim_sanitize_properties "/dest/Book: A  B.mp3").2.2.2 (by decide)⟩

/-! ### The filesystem service scanner (FileSystemService) -/

/-- A model filesystem entry: a plain file or a directory with a
readability flag (an unreadable directory's listing fails).  Symbolic
links are outside the model. -/
inductive FSEntry where
  | file (name : String)
  | dir (name : String) (readable : Bool) (entries : List FSEntry)

/-- The scan options read by the recursive scan. -/
structure ScanOpts where
  recursive : Bool
  maxDepth : ℕ
  includeHidden : Bool
deriving DecidableEq, Repr

def SUPPORTED_EXTENSIONS : List String :=
  [".mp3", ".m4a", ".m4b", ".aac", ".ogg", ".flac", ".opus"]

/-- isSupportedAudioFormat: the lowercased extension is in the supported
set. -/
def isSupportedAudioFormat (filePath : String) : Bool :=
  SUPPORTED_EXTENSIONS.contains ⟨(pathExtname filePath).data.map jsLower⟩

mutual

/-- The per-entry body of the loop of the recursive scan: hidden entries
are skipped; files are collected when their format is supported;
directories are recursed into when the recursive option is set, with the
depth check and the readability of the subdirectory applied on entry
(an unreadable directory is the caught readdir failure, yielding
nothing). -/
def scanEntry (opts : ScanOpts) (dirPath : String) (depth : ℕ) :
    FSEntry → List String
  | .file n =>
    if !opts.includeHidden ∧ n.data.head? = some '.' then []
    else if isSupportedAudioFormat (pathJoin2 dirPath n) then
      [pathJoin2 dirPath n]
    else []
  | .dir n r sub =>
    if !opts.includeHidden ∧ n.data.head? = some '.' then []
    else if opts.recursive then
      if 0 < opts.maxDepth ∧ opts.maxDepth < depth + 1 then []
      else if !r then []
      else scanList opts (pathJoin2 dirPath n) (depth + 1) sub
    else []

/-- The entry loop: results of all entries concatenated in order. -/
def scanList (opts : ScanOpts) (dirPath : String) (depth : ℕ) :
    List FSEntry → List String
  | [] => []
  | e :: rest =>
    scanEntry opts dirPath depth e ++ scanList opts dirPath depth rest

end

/-- FileSystemService._scanDirectoryRecursive at a directory already
resolved: depth ceiling first, then the directory listing (failing for an
unreadable directory, caught and yielding the empty list), then the entry
loop. -/
def scanDirectoryRecursive (opts : ScanOpts) (dirPath : String)
    (readable : Bool) (entries : List FSEntry) (depth : ℕ) : List String :=
  if 0 < opts.maxDepth ∧ opts.maxDepth < depth then []
  else if !readable then []
  else scanList opts dirPath depth entries

/-- The state of the root path: missing, not a directory, or a directory
with a readability flag and entries. -/
inductive RootState where
  | missing
  | notDirectory
  | dir (readable : Bool) (entries : List FSEntry)

/-- FileSystemService.scanDirectory: the stat check throws for a missing
or non-directory root, and the thrown error is routed through the error
handler, which returns the error object to the caller (modelled as
Except.error); an existing directory is scanned from depth 1. -/
def scanDirectory (root : RootState) (dirPath : String) (opts : ScanOpts) :
    Except String (List String) :=
  match root with
  | .missing => .error "Directory does not exist"
  | .notDirectory => .error "Path is not a directory"
  | .dir r entries => .ok (scanDirectoryRecursive opts dirPath r entries 1)

/-- The constructor's scan-option defaults: a zero or absent configured
maxScanDepth is replaced by 5 (the JS or-default). -/
structure FSConfig where
  maxScanDepth : Option ℕ
deriving DecidableEq, Repr

def defaultMaxDepth (cfg : FSConfig) : ℕ :=
  match cfg.maxScanDepth with
  | some n => if n = 0 then 5 else n
  | none => 5

/-- All files of the model tree paired with their level below the root
(files directly in the root are at level 1), with no filtering: the
claim-side inventory against which the scan's depth ceiling is stated. -/
def allFilesAt (dirPath : String) (lvl : ℕ) : List FSEntry →
    List (String × ℕ)
  | [] => []
  | .file n :: rest =>
    (pathJoin2 dirPath n, lvl) :: allFilesAt dirPath lvl rest
  | .dir n _ sub :: rest =>
    allFilesAt (pathJoin2 dirPath n) (lvl + 1) sub ++
      allFilesAt dirPath lvl rest

/-- Every file delivered by the entry loop at an admissible depth appears
in the unfiltered file inventory at a level within the ceiling. -/
theorem scanList_depth (opts : ScanOpts) :
    ∀ (entries : List FSEntry) (dirPath : String) (depth : ℕ),
      0 < opts.maxDepth → depth ≤ opts.maxDepth →
      ∀ p ∈ scanList opts dirPath depth entries,
        ∃ q ∈ allFilesAt dirPath depth entries,
          q.1 = p ∧ q.2 ≤ opts.maxDepth
  | [], dirPath, depth => by
    intro _ _ p hp
    simp [scanList] at hp
  | .file n :: rest, dirPath, depth => by
    intro h0 hd p hp
    rw [scanList] at hp
    rcases List.mem_append.mp hp with h1 | h1
    · rw [scanEntry] at h1
      split at h1
      · simp at h1
      · split at h1
        · simp at h1
          subst h1
          exact ⟨(pathJoin2 dirPath n, depth), by simp [allFilesAt], rfl, hd⟩
        · simp at h1
    · obtain ⟨q, hq, hq2⟩ := scanList_depth opts rest dirPath depth h0 hd p h1
      exact ⟨q, by simp [allFilesAt, hq], hq2⟩
  | .dir n r sub :: rest, dirPath, depth => by
    intro h0 hd p hp
    rw [scanList] at hp
    rcases List.mem_append.mp hp with h1 | h1
    · rw [scanEntry] at h1
      split at h1
      · simp at h1
      · split at h1
        · split at h1
          · simp at h1
          · split at h1
            · simp at h1
            · rename_i hdepth _
              have hd2 : depth + 1 ≤ opts.maxDepth := by
                rcases Nat.lt_or_ge opts.maxDepth (depth + 1) with hlt | hge
                · exact absurd ⟨h0, hlt⟩ hdepth
                · exact hge
              obtain ⟨q, hq, hq2⟩ := scanList_depth opts sub
                (pathJoin2 dirPath n) (depth + 1) h0 hd2 p h1
              refine ⟨q, ?_, hq2⟩
              simp only [allFilesAt, List.mem_append]
              exact Or.inl hq
        · simp at h1
    · obtain ⟨q, hq, hq2⟩ := scanList_depth opts rest dirPath depth h0 hd p h1
      refine ⟨q, ?_, hq2⟩
      simp only [allFilesAt, List.mem_append]
      exact Or.inr hq
termination_by entries => sizeOf entries
decreasing_by
  all_goals simp
  all_goals omega

/-- C5: with a positive max depth d, scanDirectory never returns a file
lying deeper than d levels below the root; and a configured depth of 0 (or
an absent configuration) yields the bounded default 5, not an unlimited
scan. -/
theorem claim_scan_depth_ceiling :
    (∀ (opts : ScanOpts) (dirPath : String) (r : Bool)
        (entries : List FSEntry) (l : List String) (p : String),
      0 < opts.maxDepth →
      scanDirectory (.dir r entries) dirPath opts = .ok l → p ∈ l →
      ∃ q ∈ allFilesAt dirPath 1 entries, q.1 = p ∧ q.2 ≤ opts.maxDepth) ∧
    defaultMaxDepth ⟨some 0⟩ = 5 ∧ defaultMaxDepth ⟨none⟩ = 5 := by
  refine ⟨?_, rfl, rfl⟩
  intro opts dirPath r entries l p h0 hok hp
  have hl : scanDirectoryRecursive opts dirPath r entries 1 = l := by
    injection hok
  rw [← hl] at hp
  unfold scanDirectoryRecursive at hp
  split at hp
  · simp at hp
  · split at hp
    · simp at hp
    · exact scanList_depth opts entries dirPath 1 h0 h0 p hp

/-- C5 witness: a two-level tree scanned with max depth 1 yields only the
top-level file, which the theorem locates at level 1. -/
theorem claim_scan_depth_ceiling_witness :
    ∃ q ∈ allFilesAt "/r" 1
      [FSEntry.file "a.mp3", FSEntry.dir "sub" true [FSEntry.file "d.mp3"]],
      q.1 = "/r/a.mp3" ∧ q.2 ≤ (1 : ℕ) :=
  claim_scan_depth_ceiling.1 ⟨true, 1, false⟩ "/r" true
    [FSEntry.file "a.mp3", FSEntry.dir "sub" true [FSEntry.file "d.mp3"]]
    ["/r/a.mp3"] "/r/a.mp3" (by decide) (by rfl) (by decide)

/-- C6 counterexample: a scan whose root directory exists but is
unreadable does not fail — the caller receives a successful empty result,
because the readdir failure is caught inside the recursive scan. -/
theorem claim_scan_unreadable_root_counterexample :
    scanDirectory (.dir false [FSEntry.file "b.mp3"]) "/root"
      ⟨true, 5, false⟩ = .ok [] := rfl

/-- C6 (amended): a missing or non-directory root fails the whole scan
(the caller receives the error, not a result); an unreadable root yields a
successful empty result, exactly like any unreadable directory; and an
unreadable subdirectory contributes zero files from its subtree without
aborting the scan of its siblings. -/
theorem claim_scan_error_isolation :
    (∀ (dirPath : String) (opts : ScanOpts),
      scanDirectory .missing dirPath opts = .error "Directory does not exist") ∧
    (∀ (dirPath : String) (opts : ScanOpts),
      scanDirectory .notDirectory dirPath opts
        = .error "Path is not a directory") ∧
    (∀ (dirPath : String) (opts : ScanOpts) (entries : List FSEntry),
      scanDirectory (.dir false entries) dirPath opts = .ok []) ∧
    (∀ (opts : ScanOpts) (dirPath : String) (depth : ℕ) (n : String)
        (sub : List FSEntry),
      scanEntry opts dirPath depth (.dir n false sub) = []) ∧
    (∀ (opts : ScanOpts) (dirPath : String) (depth : ℕ) (n : String)
        (sub : List FSEntry) (l1 l2 : List FSEntry),
      scanList opts dirPath depth (l1 ++ .dir n false sub :: l2) =
        scanList opts dirPath depth l1 ++ scanList opts dirPath depth l2) := by
  have hdir : ∀ (opts : ScanOpts) (dirPath : String) (depth : ℕ) (n : String)
      (sub : List FSEntry),
      scanEntry opts dirPath depth (.dir n false sub) = [] := by
    intro opts dirPath depth n sub
    rw [scanEntry]
    split
    · rfl
    · split
      · split
        · rfl
        · split
          · rfl
          · rename_i hr
            simp at hr
      · rfl
  have happ : ∀ (opts : ScanOpts) (dirPath : String) (depth : ℕ)
      (l1 l2 : List FSEntry),
      scanList opts dirPath depth (l1 ++ l2) =
        scanList opts dirPath depth l1 ++ scanList opts dirPath depth l2 := by
    intro opts dirPath depth l1 l2
    induction l1 with
    | nil => simp [scanList]
    | cons e t ih =>
      rw [List.cons_append, scanList, scanList, ih, List.append_assoc]
  refine ⟨fun _ _ => rfl, fun _ _ => rfl, ?_, hdir, ?_⟩
  · intro dirPath opts entries
    show Except.ok (scanDirectoryRecursive opts dirPath false entries 1) = _
    unfold scanDirectoryRecursive
    split
    · rfl
    · simp
  · intro opts dirPath depth n sub l1 l2
    rw [happ]
    show _ ++ scanList opts dirPath depth (FSEntry.dir n false sub :: l2) = _
    rw [scanList, hdir]
    simp

/-! ### The bounded-concurrency task queue (createQueue) -/

/-- The queue's observable state: tasks are identified by submission
index; the waiting queue and the running set hold task ids, the started
list records the order in which tasks began execution (ghost information
recording the dequeue order), and the counters mirror the
completed/failed counters of the source. -/
structure QueueState where
  nextId : ℕ
  submitted : List ℕ
  queue : List ℕ
  running : List ℕ
  started : List ℕ
  completed : ℕ
  failed : ℕ

def initQueue : QueueState := ⟨0, [], [], [], [], 0, 0⟩

/-- processNext: do nothing when the queue is empty or the concurrency
limit is reached; otherwise shift the front task and start it. -/
def processNext (N : ℕ) (s : QueueState) : QueueState :=
  match s.queue with
  | [] => s
  | t :: rest =>
    if s.running.length < N then
      { s with
          queue := rest
          running := s.running ++ [t]
          started := s.started ++ [t] }
    else s

/-- An event: a task submission, or the settlement (success or failure) of
the i-th currently running task.  The interleaving of settlements is the
scheduler's choice, hence the index argument. -/
inductive QEvent where
  | add
  | settle (i : ℕ) (ok : Bool)

/-- One transition: add pushes the task and runs processNext (the body of
the returned add closure); settle removes a running task, bumps the
matching counter and runs processNext (the then/catch handlers). -/
def qstep (N : ℕ) (s : QueueState) : QEvent → Option QueueState
  | .add =>
    some (processNext N
      { s with
          nextId := s.nextId + 1
          submitted := s.submitted ++ [s.nextId]
          queue := s.queue ++ [s.nextId] })
  | .settle i ok =>
    if i < s.running.length then
      some (processNext N
        { s with
            running := s.running.eraseIdx i
            completed := if ok then s.completed + 1 else s.completed
            failed := if ok then s.failed else s.failed + 1 })
    else none

/-- Execution of an event trace. -/
def qrun (N : ℕ) : QueueState → List QEvent → Option QueueState
  | s, [] => some s
  | s, e :: rest =>
    match qstep N s e with
    | some s2 => qrun N s2 rest
    | none => none

/-- The queue's inductive invariant: the concurrency bound, the waiting
queue is only non-empty at full concurrency, the started order followed by
the waiting queue is exactly the submission order, and every started task
is either still running or counted settled. -/
def QInv (N : ℕ) (s : QueueState) : Prop :=
  s.running.length ≤ N ∧
  (s.queue ≠ [] → s.running.length = N) ∧
  s.started ++ s.queue = s.submitted ∧
  s.completed + s.failed + s.running.length = s.started.length

theorem qinv_init (N : ℕ) : QInv N initQueue := by
  exact ⟨by simp [initQueue], fun h => absurd rfl h, rfl, rfl⟩

theorem processNext_nil {N : ℕ} {s : QueueState} (h : s.queue = []) :
    processNext N s = s := by
  unfold processNext
  rw [h]

theorem processNext_cons_start {N : ℕ} {s : QueueState} {t : ℕ}
    {rest : List ℕ} (h : s.queue = t :: rest)
    (hlt : s.running.length < N) :
    processNext N s =
      { s with
          queue := rest
          running := s.running ++ [t]
          started := s.started ++ [t] } := by
  unfold processNext
  rw [h]
  exact if_pos hlt

theorem processNext_cons_full {N : ℕ} {s : QueueState} {t : ℕ}
    {rest : List ℕ} (h : s.queue = t :: rest)
    (hge : ¬ s.running.length < N) :
    processNext N s = s := by
  unfold processNext
  rw [h]
  exact if_neg hge

theorem qinv_processNext {N : ℕ} {s : QueueState}
    (h1 : s.running.length ≤ N)
    (h2 : 2 ≤ s.queue.length → N ≤ s.running.length + 1)
    (h3 : s.started ++ s.queue = s.submitted)
    (h4 : s.completed + s.failed + s.running.length = s.started.length) :
    QInv N (processNext N s) := by
  rcases hq : s.queue with _ | ⟨t, rest⟩
  · rw [processNext_nil hq]
    exact ⟨h1, fun hne => absurd hq hne, h3, h4⟩
  · by_cases hlt : s.running.length < N
    · rw [processNext_cons_start hq hlt]
      refine ⟨?_, ?_, ?_, ?_⟩
      · show (s.running ++ [t]).length ≤ N
        simp only [List.length_append, List.length_cons, List.length_nil]
        omega
      · intro hne
        show (s.running ++ [t]).length = N
        rcases rest with _ | ⟨r, rs⟩
        · exact absurd rfl hne
        · have h2q : 2 ≤ s.queue.length := by
            rw [hq]
            simp only [List.length_cons]
            omega
          have := h2 h2q
          simp only [List.length_append, List.length_cons, List.length_nil]
          omega
      · show s.started ++ [t] ++ rest = s.submitted
        rw [← h3, hq]
        simp
      · show s.completed + s.failed + (s.running ++ [t]).length =
          (s.started ++ [t]).length
        simp only [List.length_append, List.length_cons, List.length_nil]
        omega
    · rw [processNext_cons_full hq hlt]
      exact ⟨h1, fun _ => by omega, h3, h4⟩

theorem qinv_step {N : ℕ} {s s2 : QueueState} {e : QEvent}
    (hstep : qstep N s e = some s2) (hinv : QInv N s) : QInv N s2 := by
  obtain ⟨h1, h2, h3, h4⟩ := hinv
  cases e with
  | add =>
    simp only [qstep, Option.some.injEq] at hstep
    subst hstep
    apply qinv_processNext
    · exact h1
    · show 2 ≤ (s.queue ++ [s.nextId]).length → N ≤ s.running.length + 1
      intro hlen
      simp only [List.length_append, List.length_cons, List.length_nil]
        at hlen
      have hne : s.queue ≠ [] := by
        intro hnil
        rw [hnil] at hlen
        simp at hlen
      have := h2 hne
      omega
    · show s.started ++ (s.queue ++ [s.nextId]) = s.submitted ++ [s.nextId]
      rw [← List.append_assoc, h3]
    · exact h4
  | settle i ok =>
    simp only [qstep] at hstep
    split at hstep
    · rename_i hlt
      simp only [Option.some.injEq] at hstep
      subst hstep
      have hlen : (s.running.eraseIdx i).length = s.running.length - 1 :=
        List.length_eraseIdx_of_lt hlt
      apply qinv_processNext
      · show (s.running.eraseIdx i).length ≤ N
        omega
      · show 2 ≤ s.queue.length → N ≤ (s.running.eraseIdx i).length + 1
        intro hq2
        have hne : s.queue ≠ [] := by
          intro hnil
          rw [hnil] at hq2
          simp at hq2
        have := h2 hne
        omega
      · exact h3
      · show (if ok then s.completed + 1 else s.completed) +
            (if ok then s.failed else s.failed + 1) +
            (s.running.eraseIdx i).length = s.started.length
        cases ok
        · show s.completed + (s.failed + 1) +
            (s.running.eraseIdx i).length = s.started.length
          omega
        · show (s.completed + 1) + s.failed +
            (s.running.eraseIdx i).length = s.started.length
          omega
    · exact absurd hstep (by simp)

theorem qrun_inv (N : ℕ) (events : List QEvent) :
    ∀ s s2 : QueueState, QInv N s → qrun N s events = some s2 →
      QInv N s2 := by
  induction events with
  | nil =>
    intro s s2 hinv hrun
    simp only [qrun, Option.some.injEq] at hrun
    subst hrun
    exact hinv
  | cons e rest ih =>
    intro s s2 hinv hrun
    rw [qrun] at hrun
    rcases hq : qstep N s e with _ | s1
    · rw [hq] at hrun
      exact absurd hrun (by simp)
    · rw [hq] at hrun
      exact ih s1 s2 (qinv_step hq hinv) hrun

/-- C2: in every state reachable by a trace of submissions and settlements
from the empty queue with concurrency N, at most N tasks run
simultaneously; the tasks started so far followed by the waiting queue is
exactly the submission order, so waiting tasks are dequeued in FIFO
submission order; settled (completed or failed) plus running tasks account
for every started task; whenever a running task settles (successfully or
not) while tasks are waiting, the frontmost waiting task is started
immediately by that settlement; and once no task is left running (with
positive concurrency) the waiting queue is empty and every submitted task
has been counted completed or failed. -/
theorem claim_queue_invariants (N : ℕ) (events : List QEvent)
    (s : QueueState) (hrun : qrun N initQueue events = some s) :
    s.running.length ≤ N ∧
    s.started ++ s.queue = s.submitted ∧
    s.completed + s.failed + s.running.length = s.started.length ∧
    (∀ i ok s2 q0 rest, qstep N s (QEvent.settle i ok) = some s2 →
      s.queue = q0 :: rest → s2.started = s.started ++ [q0]) ∧
    (1 ≤ N → s.running = [] →
      s.queue = [] ∧ s.completed + s.failed = s.submitted.length) := by
  obtain ⟨h1, h2, h3, h4⟩ := qrun_inv N events initQueue s (qinv_init N) hrun
  refine ⟨h1, h3, h4, ?_, ?_⟩
  · intro i ok s2 q0 rest hstep hq
    have hfull : s.running.length = N := by
      apply h2
      rw [hq]
      exact List.cons_ne_nil q0 rest
    simp only [qstep] at hstep
    split at hstep
    · rename_i hlt
      simp only [Option.some.injEq] at hstep
      subst hstep
      have hlen : (s.running.eraseIdx i).length = s.running.length - 1 :=
        List.length_eraseIdx_of_lt hlt
      have hq' : ({ s with
          running := s.running.eraseIdx i
          completed := if ok then s.completed + 1 else s.completed
          failed := if ok then s.failed else s.failed + 1 } :
            QueueState).queue = q0 :: rest := hq
      have hlt2 : ({ s with
          running := s.running.eraseIdx i
          completed := if ok then s.completed + 1 else s.completed
          failed := if ok then s.failed else s.failed + 1 } :
            QueueState).running.length < N := by
        show (s.running.eraseIdx i).length < N
        omega
      rw [processNext_cons_start hq' hlt2]
    · exact absurd hstep (by simp)
  · intro hN hquiet
    have hq : s.queue = [] := by
      by_contra hne
      have hfull := h2 hne
      rw [hquiet] at hfull
      simp only [List.length_nil] at hfull
      omega
    refine ⟨hq, ?_⟩
    rw [hq, List.append_nil] at h3
    rw [hquiet] at h4
    simp only [List.length_nil] at h4
    rw [← h3]
    omega

theorem claim_queue_invariants_witness :
    qrun 1 initQueue
        [QEvent.add, QEvent.add, QEvent.settle 0 true,
          QEvent.settle 0 false] =
      some ⟨2, [0, 1], [], [], [0, 1], 1, 1⟩ ∧
    (⟨2, [0, 1], [], [], [0, 1], 1, 1⟩ : QueueState).running.length ≤ 1 ∧
    (⟨2, [0, 1], [], [], [0, 1], 1, 1⟩ : QueueState).queue = [] ∧
    (⟨2, [0, 1], [], [], [0, 1], 1, 1⟩ : QueueState).completed +
        (⟨2, [0, 1], [], [], [0, 1], 1, 1⟩ : QueueState).failed =
      (⟨2, [0, 1], [], [], [0, 1], 1, 1⟩ : QueueState).submitted.length := by
  have h := claim_queue_invariants 1
    [QEvent.add, QEvent.add, QEvent.settle 0 true, QEvent.settle 0 false]
    ⟨2, [0, 1], [], [], [0, 1], 1, 1⟩ rfl
  have hq := h.2.2.2.2 (by omega) rfl
  exact ⟨rfl, h.1, hq.1, hq.2⟩

end AudiobookTagger
